import Mathlib

/-!
Verification of the AnyChess position codec, bot move selection and
synchronization handlers.

The TypeScript sources are shallowly embedded:
  * the editor position object (a JavaScript `Record<string,string>`) becomes an
    association list `PosObj` read through `lookupSq` (first match wins, which is
    the record semantics because assignment conses the new binding on top);
  * JavaScript truthiness of `obj[sq]` (undefined or the empty string are falsy)
    is modelled by `jsGet`;
  * `string.split(sep)` is modelled by `splitCh`/`jsSplit` (splitting at every
    occurrence of the separator, so the result is never empty and may contain
    empty fields);
  * fallible code (`throw`, `{ fen: null, error }`) becomes `Except String`;
  * the rule oracle (chess.js) is external to the repository and is treated as
    an opaque capability, exactly as the specification prescribes: the bot is
    verified over an abstract oracle view (current board plus the legal moves,
    each paired with the board it leads to), and the sync handlers over an
    abstract `load` function.
-/

namespace AnyChess

/-- Side to move, `'w' | 'b'` in the source. -/
inductive Turn where
  | w
  | b
deriving DecidableEq

/-- String form of the side to move, as interpolated into the FEN template. -/
def Turn.str : Turn → String
  | .w => "w"
  | .b => "b"

/-- Editor position object: `Record<string, string>` mapping square names to
piece codes such as `"wP"`.  Represented as an association list; reads go
through `lookupSq` below. -/
abbrev PosObj := List (String × String)

/-- Record lookup: first binding for the key wins. -/
def lookupSq : PosObj → String → Option String
  | [], _ => none
  | kv :: rest, s => if kv.1 = s then some kv.2 else lookupSq rest s

/-- JavaScript read `obj[sq]` as used in truthiness tests and comparisons with
non-empty literals: an absent key and an empty-string value behave alike. -/
def jsGet (obj : PosObj) (s : String) : Option String :=
  match lookupSq obj s with
  | some p => if p = "" then none else some p
  | none => none

/-- The `FILES` constant `['a',...,'h']` of the source. -/
def FILES : List Char := ['a', 'b', 'c', 'd', 'e', 'f', 'g', 'h']

/-- JavaScript indexing `FILES[f]`: out-of-range indexing yields `undefined`,
which stringifies to `"undefined"` inside a template literal. -/
def fileStr (f : Nat) : String :=
  match FILES.get? f with
  | some c => String.singleton c
  | none => "undefined"

/-- The template literal `` `${FILES[f]}${r}` `` building a square name.  The
rank is an integer because the decoder's rank counter can in principle go
below 1 on malformed input. -/
def sqStr (f : Nat) (r : Int) : String := fileStr f ++ toString r

/-- JavaScript `s.split(sep)` on a list of characters: splits at every
separator occurrence; the result is never empty. -/
def splitCh (sep : Char) : List Char → List (List Char)
  | [] => [[]]
  | c :: rest =>
    if c = sep then [] :: splitCh sep rest
    else
      match splitCh sep rest with
      | [] => [[c]]
      | g :: gs => (c :: g) :: gs

/-- JavaScript `s.split(sep)` on strings. -/
def jsSplit (sep : Char) (s : String) : List String :=
  (splitCh sep s.data).map (fun cs => String.mk cs)

/-- JavaScript `s.includes(c)` for a single-character needle. -/
def strIncludes (s : String) (c : Char) : Bool := s.data.contains c

/-- JavaScript `s.startsWith(pre)`. -/
def strStarts (s pre : String) : Bool := pre.data.isPrefixOf s.data

/-- JavaScript truthiness of `s.trim()`: true iff some character is not
whitespace. -/
def hasNonWs (s : String) : Bool := s.data.any (fun c => !c.isWhitespace)

/-- The valid piece codes (the values of the editor record). -/
def pieceCodes : List String :=
  ["wK", "wQ", "wR", "wB", "wN", "wP", "bK", "bQ", "bR", "bB", "bN", "bP"]

/-- The `pieceToSymbol` map of the source (`wK ↦ K`, ..., `bP ↦ p`); an unknown
code yields `undefined`, i.e. `none`. -/
def pieceToSymbol (p : String) : Option String :=
  if p = "wK" then some "K" else if p = "wQ" then some "Q"
  else if p = "wR" then some "R" else if p = "wB" then some "B"
  else if p = "wN" then some "N" else if p = "wP" then some "P"
  else if p = "bK" then some "k" else if p = "bQ" then some "q"
  else if p = "bR" then some "r" else if p = "bB" then some "b"
  else if p = "bN" then some "n" else if p = "bP" then some "p"
  else none

/-- The `symbolToPiece` function of the source: uppercase test decides the
color, the uppercased letter selects the kind, anything else throws
`'bad symbol'`. -/
def symbolToPiece (c : Char) : Except String String :=
  let white := c.toUpper = c
  let t := c.toUpper
  let m : Option String :=
    if t = 'K' then some "K" else if t = 'Q' then some "Q"
    else if t = 'R' then some "R" else if t = 'B' then some "B"
    else if t = 'N' then some "N" else if t = 'P' then some "P"
    else none
  match m with
  | none => Except.error "bad symbol"
  | some k => Except.ok ((if white then "w" else "b") ++ k)

/-- En-passant candidate scan shared by the two branches of
`autoDetectEnPassant`; the source writes the white and black loops out
literally with the constants inlined (white: pawn rank 5, target rank 6, enemy
`bP`, friendly `wP`; black: pawn rank 4, target rank 3, enemy `wP`, friendly
`bP`). -/
def epProbe (obj : PosObj) (pRank eRank : Int) (enemy friend : String) (idx : Nat) :
    Option String :=
  if jsGet obj (sqStr idx pRank) ≠ some enemy then none
  else if (jsGet obj (sqStr idx eRank)).isSome then none
  else if (0 < idx ∧ jsGet obj (sqStr (idx - 1) pRank) = some friend)
        ∨ (idx < 7 ∧ jsGet obj (sqStr (idx + 1) pRank) = some friend)
  then some (sqStr idx eRank) else none

def scanEP (obj : PosObj) (pRank eRank : Int) (enemy friend : String) : List String :=
  (List.range 8).filterMap (epProbe obj pRank eRank enemy friend)

/-- Candidate list built by `autoDetectEnPassant` before the uniqueness test. -/
def epCands (obj : PosObj) : Turn → List String
  | .w => scanEP obj 5 6 "bP" "wP"
  | .b => scanEP obj 4 3 "wP" "bP"

/-- The source's `autoDetectEnPassant`: the unique candidate, or `"-"` when
there are zero or several. -/
def autoDetectEnPassant (obj : PosObj) (turn : Turn) : String :=
  match epCands obj turn with
  | [c] => c
  | _ => "-"

/-- Castling flags record of the source (`{K, Q, k, q}`). -/
structure Castling where
  K : Bool
  Q : Bool
  k : Bool
  q : Bool
deriving DecidableEq

/-- The castling field: ordered concatenation of the present rights, with the
JavaScript `|| '-'` turning the empty string into a dash. -/
def castleStr (cf : Castling) : String :=
  let s := (if cf.K then "K" else "") ++ (if cf.Q then "Q" else "")
      ++ (if cf.k then "k" else "") ++ (if cf.q then "q" else "")
  if s = "" then "-" else s

/-- Mutable state of the placement-building loop in `posObjToFen`: the string
built so far, the two king counters, and the pending empty-square count of the
current rank. -/
structure EncSt where
  placement : String
  wK : Nat
  bK : Nat
  empty : Nat
deriving DecidableEq

/-- Body of the inner file loop of `posObjToFen` for one square. -/
def encSquare (obj : PosObj) (r : Nat) (f : Nat) (st : EncSt) : Except String EncSt :=
  match jsGet obj (sqStr f (r : Int)) with
  | none => Except.ok { st with empty := st.empty + 1 }
  | some p =>
    let st1 : EncSt :=
      if st.empty ≠ 0 then
        { st with placement := st.placement ++ toString st.empty, empty := 0 }
      else st
    if (r = 1 ∨ r = 8) ∧ (p = "wP" ∨ p = "bP") then
      Except.error ("Pawns cannot be on rank " ++ toString r ++ ". Promote them.")
    else
      match pieceToSymbol p with
      | none => Except.error ("Unknown piece: " ++ p)
      | some sym =>
        Except.ok
          { placement := st1.placement ++ sym,
            wK := st1.wK + (if sym = "K" then 1 else 0),
            bK := st1.bK + (if sym = "k" then 1 else 0),
            empty := 0 }

/-- One iteration of the outer rank loop of `posObjToFen`: reset the empty
counter, scan the eight files, flush a trailing empty count, and append the
rank separator except after rank 1. -/
def encRank (obj : PosObj) (r : Nat) (st0 : EncSt) : Except String EncSt := do
  let st ← (List.range 8).foldlM (fun st f => encSquare obj r f st) { st0 with empty := 0 }
  let st :=
    if st.empty ≠ 0 then
      { st with placement := st.placement ++ toString st.empty, empty := 0 }
    else st
  pure (if r ≠ 1 then { st with placement := st.placement ++ "/" } else st)

/-- The rank sequence of the outer loop `for (let r = 8; r >= 1; r--)`. -/
def RANKS : List Nat := [8, 7, 6, 5, 4, 3, 2, 1]

/-- The source's `posObjToFen`: build the placement (validating pawns ranks and
piece codes on the way), reject unless exactly one king per side, then emit the
six-field string with clock fields fixed at `0` and `1`.  `Except.error e`
models the `{ fen: null, error: e }` return value. -/
def posObjToFen (obj : PosObj) (turn : Turn) (cf : Castling) : Except String String := do
  let st ← RANKS.foldlM (fun st r => encRank obj r st) ⟨"", 0, 0, 0⟩
  if st.wK ≠ 1 ∨ st.bK ≠ 1 then
    Except.error ("Place exactly one king per side (found W:" ++ toString st.wK
      ++ ", B:" ++ toString st.bK ++ ").")
  else
    Except.ok (st.placement ++ " " ++ turn.str ++ " " ++ castleStr cf ++ " "
      ++ autoDetectEnPassant obj turn ++ " 0 1")

/-- Mutable state of the decoding walk in `fenToPosObj`. -/
structure DecSt where
  pos : PosObj
  rank : Int
  file : Nat
deriving DecidableEq

/-- Body of the `for (const ch of placement)` loop of `fenToPosObj`: `/` closes
a rank, a digit advances the file counter, anything else must be a placement
symbol and is stored at the current square. -/
def decodeChar (st : DecSt) (c : Char) : Except String DecSt :=
  if c = '/' then Except.ok { st with rank := st.rank - 1, file := 0 }
  else if c.isDigit then Except.ok { st with file := st.file + (c.toNat - '0'.toNat) }
  else do
    let p ← symbolToPiece c
    Except.ok { st with pos := (sqStr st.file st.rank, p) :: st.pos, file := st.file + 1 }

/-- The decoding walk over the placement characters. -/
def decChars (cs : List Char) (st : DecSt) : Except String DecSt :=
  cs.foldlM decodeChar st

/-- Result record of `fenToPosObj`. -/
structure DecodeResult where
  pos : PosObj
  turn : Turn
  castle : Castling
deriving DecidableEq

/-- The source's `fenToPosObj`: destructure `fen.split(' ')` into placement,
turn and castling fields (the latter two possibly missing), walk the placement,
and read the castling booleans with `castle?.includes(..) || false`. -/
def fenToPosObj (fen : String) : Except String DecodeResult := do
  let fields := jsSplit ' ' fen
  let placement := fields.headD ""
  let turnF := fields.get? 1
  let castleF := fields.get? 2
  let st ← decChars placement.data ⟨[], 8, 0⟩
  pure
    { pos := st.pos,
      turn := if turnF = some "b" then Turn.b else Turn.w,
      castle :=
        { K := (match castleF with | some s => strIncludes s 'K' | none => false),
          Q := (match castleF with | some s => strIncludes s 'Q' | none => false),
          k := (match castleF with | some s => strIncludes s 'k' | none => false),
          q := (match castleF with | some s => strIncludes s 'q' | none => false) } }

/-- All 64 board square names, rank 8 down to rank 1, files a to h, the order
of the serialization scan. -/
def boardSquares : List String :=
  (RANKS.map (fun (r : Nat) => (List.range 8).map (fun f => sqStr f (r : Int)))).flatten

/-- Number of pieces of code `p` on the board (counted over the 64 squares
through the JavaScript read semantics). -/
def countPiece (obj : PosObj) (p : String) : Nat :=
  (RANKS.map (fun (r : Nat) =>
    ((List.range 8).filter (fun f => jsGet obj (sqStr f (r : Int)) = some p)).length)).sum

/-- An editor-form position: every binding is a board square holding one of the
twelve valid piece codes. -/
@[reducible]
def WellFormedPos (obj : PosObj) : Prop :=
  ∀ kv ∈ obj, kv.1 ∈ boardSquares ∧ kv.2 ∈ pieceCodes

/-- No pawn of either color sits on rank 1 or rank 8. -/
@[reducible]
def noPawnBackRank (obj : PosObj) : Prop :=
  ∀ f ∈ List.range 8, ∀ r ∈ ([1, 8] : List Nat),
    jsGet obj (sqStr f (r : Int)) ≠ some "wP" ∧ jsGet obj (sqStr f (r : Int)) ≠ some "bP"

/-! ### Bot move selection (`lib/bot.ts`) -/

/-- Piece kinds as reported by the oracle's `board()` cells. -/
inductive Kind where
  | p
  | n
  | b
  | r
  | q
  | k
deriving DecidableEq

/-- The `VAL` table of the bot, in centipawns. -/
def VAL : Kind → Int
  | .p => 100
  | .n => 320
  | .b => 330
  | .r => 500
  | .q => 900
  | .k => 0

/-- One cell of the oracle's board: color and kind, or empty. -/
structure Cell where
  color : Turn
  kind : Kind
deriving DecidableEq

/-- The oracle's `board()` value: rows of cells. -/
abbrev ChessBoard := List (List (Option Cell))

/-- Body of the cell loop of `materialScore`: add the piece value, positive
for white, negative for black, skipping empty cells. -/
def cellScore (a : Int) (cell : Option Cell) : Int :=
  match cell with
  | none => a
  | some c => a + (if c.color = Turn.w then VAL c.kind else -VAL c.kind)

/-- The bot's `materialScore`: white pieces count positively, black
negatively. -/
def materialScore (board : ChessBoard) : Int :=
  board.foldl (fun acc row => row.foldl cellScore acc) 0

/-- Abstract view of the rule oracle as used by `pickBotMove`: the board of
the given position and the legal moves, each paired with the board obtained by
applying it (the source applies the move, scores, then undoes it).  The list
is the move list after the tie-break shuffle; theorems quantify over it, hence
over every shuffle outcome. -/
structure Oracle (μ : Type) where
  board : ChessBoard
  legal : List (μ × ChessBoard)

/-- Body of the scanning loop of `pickBotMove`: score the candidate move's
board oriented for the bot's color, take the delta against the pre-move score,
and keep the move on a strict improvement of the running best. -/
def botStep {μ : Type} (base sgn : Int) (acc : Option μ × Int) (mb : μ × ChessBoard) :
    Option μ × Int :=
  let score := materialScore mb.2 * sgn
  let delta := score - base * sgn
  if delta > acc.2 then (some mb.1, delta) else acc

/-- The source's `pickBotMove`: return `null` on an empty move list, otherwise
scan the (shuffled) moves keeping the first strict improvement over the
running best score, which starts at `-1e9`. -/
def pickBotMove {μ : Type} (o : Oracle μ) (color : Turn) : Option μ :=
  if o.legal.length = 0 then none
  else
    (o.legal.foldl (botStep (materialScore o.board) (if color = Turn.w then 1 else -1))
      ((none : Option μ), (-1000000000 : Int))).1

/-- A real `chess.js` board: eight rows of eight cells. -/
@[reducible]
def Board8 (b : ChessBoard) : Prop := b.length = 8 ∧ ∀ row ∈ b, row.length = 8

/-- Well-formed oracle view: all boards are eight by eight. -/
@[reducible]
def Oracle.WF {μ : Type} (o : Oracle μ) : Prop :=
  Board8 o.board ∧ ∀ mb ∈ o.legal, Board8 mb.2

/-- Material delta of a move leading to board `b`, oriented for `color`: the
score the bot assigns to that move. -/
def moveDelta {μ : Type} (o : Oracle μ) (color : Turn) (b : ChessBoard) : Int :=
  let sgn : Int := if color = Turn.w then 1 else -1
  materialScore b * sgn - materialScore o.board * sgn

/-! ### Synchronization handlers -/

/-- Play regime of a session. -/
inductive Mode where
  | strict
  | sandbox
deriving DecidableEq

/-- Opaque oracle handle (`new Chess(fen)` result); the only observation the
handlers make of it is the side to move. -/
structure OracleHandle where
  turn : Turn
deriving DecidableEq

/-- Abstract `new Chess(fen)` constructor: `none` models the thrown
exception on a position the oracle rejects. -/
abbrev LoadFn := String → Option OracleHandle

/-- State touched by the broadcast handler of `pages/index.tsx`
(`createRoom`/`joinRoom`): the current FEN and the oracle handle. -/
structure SessionI where
  fen : String
  chess : OracleHandle
deriving DecidableEq

/-- The broadcast `move` handler of `pages/index.tsx`: ignore payloads without
a string `fen`; otherwise try to load it into the oracle, replacing the state
on success and dropping the message on failure. -/
def handleMoveMsg (load : LoadFn) (st : SessionI) (rf? : Option String) : SessionI :=
  match rf? with
  | none => st
  | some rf =>
    match load rf with
    | some c => { fen := rf, chess := c }
    | none => st

/-- State touched by the sandbox-capable page variant: mode, strict FEN,
sandbox position record, displayed turn and oracle handle. -/
structure Session1 where
  mode : Mode
  fen : String
  sandboxPos : PosObj
  turn : Turn
  chess : OracleHandle
deriving DecidableEq

/-- The loop of `importFENText` building the sandbox record from the
comma-separated `piece:square` list (skipping chunks with a falsy piece or
square); assignment conses so that later chunks win on lookup. -/
def sandboxEntries (rest : String) : PosObj :=
  if hasNonWs rest then
    (jsSplit ',' rest).foldl (fun obj chunk =>
      let ps := jsSplit ':' chunk
      let piece := ps.headD ""
      let sq := (ps.get? 1).getD ""
      if piece ≠ "" ∧ sq ≠ "" then (sq, piece) :: obj else obj) []
  else []

/-- The sandbox-capable page's `importFENText`: a `SANDBOX:`-prefixed string
replaces mode, sandbox position and turn wholesale; anything else switches to
strict mode and stores the text as the FEN. -/
def importFENText1 (st : Session1) (text : String) : Session1 :=
  if strStarts text "SANDBOX:" then
    let parts := jsSplit ':' text
    let t := if parts.get? 1 = some "b" then Turn.b else Turn.w
    let rest := String.intercalate ":" (parts.drop 2)
    { st with mode := Mode.sandbox, sandboxPos := sandboxEntries rest, turn := t }
  else
    { st with mode := Mode.strict, fen := text }

/-- The broadcast `move` handler of the sandbox-capable page variant: a
`SANDBOX:`-prefixed resulting position goes straight to `importFENText`,
anything else through the oracle as in `handleMoveMsg` (also updating the
displayed turn). -/
def handleMoveMsg1 (load : LoadFn) (st : Session1) (rf? : Option String) : Session1 :=
  match rf? with
  | none => st
  | some rf =>
    if strStarts rf "SANDBOX:" then importFENText1 st rf
    else
      match load rf with
      | some c => { st with chess := c, fen := rf, turn := c.turn }
      | none => st

/-! ### Specification-side predicates and proof-side helper functions -/

/-- En-passant candidate, as worded by the specification: an enemy pawn on the
capture rank whose square ahead is empty, with a friendly pawn on an adjacent
file of the same rank; the candidate square is the one ahead of the enemy
pawn.  Parameters as in `scanEP`. -/
def epSpecAt (obj : PosObj) (pRank eRank : Int) (enemy friend : String) (s : String) : Prop :=
  ∃ idx, idx < 8 ∧ s = sqStr idx eRank ∧
    jsGet obj (sqStr idx pRank) = some enemy ∧
    jsGet obj (sqStr idx eRank) = none ∧
    ((0 < idx ∧ jsGet obj (sqStr (idx - 1) pRank) = some friend)
      ∨ (idx < 7 ∧ jsGet obj (sqStr (idx + 1) pRank) = some friend))

/-- En-passant candidate for a side to move, per the specification: rank 5
pawns targeted on rank 6 for white to move, rank 4 pawns targeted on rank 3
for black to move. -/
def epCandSpec (obj : PosObj) : Turn → String → Prop
  | .w => epSpecAt obj 5 6 "bP" "wP"
  | .b => epSpecAt obj 4 3 "wP" "bP"

/-- Descending rank list `[k, k-1, ..., 1]`; `ranksDown 8 = RANKS`. -/
def ranksDown : Nat → List Nat
  | 0 => []
  | n + 1 => (n + 1) :: ranksDown n

/-- Run-length encoding of the cells at the given files of rank `r`, with `e`
pending empty squares; mirrors the placement loop body without the trailing
flush. -/
def segCore (obj : PosObj) (r : Nat) : List Nat → Nat → String
  | [], _ => ""
  | f :: rest, e =>
    match jsGet obj (sqStr f (r : Int)) with
    | none => segCore obj r rest (e + 1)
    | some p =>
      (if e ≠ 0 then toString e else "") ++ (pieceToSymbol p).getD ""
        ++ segCore obj r rest 0

/-- Pending empty-square count after scanning the given files of rank `r`
starting with `e` pending. -/
def trailEmpty (obj : PosObj) (r : Nat) : List Nat → Nat → Nat
  | [], e => e
  | f :: rest, e =>
    match jsGet obj (sqStr f (r : Int)) with
    | none => trailEmpty obj r rest (e + 1)
    | some _ => trailEmpty obj r rest 0

/-- Full placement segment of one rank, trailing empty count flushed. -/
def rankSeg (obj : PosObj) (r : Nat) : String :=
  segCore obj r (List.range 8) 0
    ++ (if trailEmpty obj r (List.range 8) 0 ≠ 0 then
          toString (trailEmpty obj r (List.range 8) 0) else "")

/-- Placement string for a list of ranks, with the separator after every rank
other than rank 1. -/
def placementOf (obj : PosObj) : List Nat → String
  | [] => ""
  | r :: rest => rankSeg obj r ++ (if r ≠ 1 then "/" else "") ++ placementOf obj rest

/-- Entries the decoder pushes while walking one rank's cells at the given
files, on top of an accumulator (pushed in file order, so reversed in the
list). -/
def rankEntriesRev (obj : PosObj) (r : Nat) : List Nat → PosObj → PosObj
  | [], acc => acc
  | f :: rest, acc =>
    match jsGet obj (sqStr f (r : Int)) with
    | none => rankEntriesRev obj r rest acc
    | some p => rankEntriesRev obj r rest ((sqStr f (r : Int), p) :: acc)

/-- Entries accumulated by decoding the ranks of `rs` in order. -/
def rankFoldAcc (obj : PosObj) (rs : List Nat) (acc : PosObj) : PosObj :=
  rs.foldl (fun acc r => rankEntriesRev obj r (List.range 8) acc) acc

/-- Per-cell validity used when scanning rank `r`: any piece present is a
valid code and is not a pawn sitting on a back rank. -/
def cellOK (obj : PosObj) (r f : Nat) : Prop :=
  ∀ p, jsGet obj (sqStr f (r : Int)) = some p →
    p ∈ pieceCodes ∧ ¬((r = 1 ∨ r = 8) ∧ (p = "wP" ∨ p = "bP"))

/-- Validity of a cell needed by the decoding argument: any piece present is a
valid code. -/
def cellCode (obj : PosObj) (r f : Nat) : Prop :=
  ∀ p, jsGet obj (sqStr f (r : Int)) = some p → p ∈ pieceCodes

/-- Number of cells among the files `fs` of rank `r` holding piece `p`. -/
def rankCount (obj : PosObj) (p : String) (r : Nat) (fs : List Nat) : Nat :=
  (fs.filter (fun f => jsGet obj (sqStr f (r : Int)) = some p)).length


/-! ### Basic facts -/

theorem codeFacts : ∀ p ∈ pieceCodes, ∃ s, pieceToSymbol p = some s ∧
    ((s = "K") ↔ (p = "wK")) ∧ ((s = "k") ↔ (p = "bK")) ∧
    ∃ c, s.data = [c] ∧ c ≠ '/' ∧ c.isDigit = false ∧ c ≠ ' '
      ∧ symbolToPiece c = Except.ok p := by
  intro p hp
  fin_cases hp
  · exact ⟨"K", by decide, by decide, by decide, 'K', by decide, by decide, by decide, by decide, rfl⟩
  · exact ⟨"Q", by decide, by decide, by decide, 'Q', by decide, by decide, by decide, by decide, rfl⟩
  · exact ⟨"R", by decide, by decide, by decide, 'R', by decide, by decide, by decide, by decide, rfl⟩
  · exact ⟨"B", by decide, by decide, by decide, 'B', by decide, by decide, by decide, by decide, rfl⟩
  · exact ⟨"N", by decide, by decide, by decide, 'N', by decide, by decide, by decide, by decide, rfl⟩
  · exact ⟨"P", by decide, by decide, by decide, 'P', by decide, by decide, by decide, by decide, rfl⟩
  · exact ⟨"k", by decide, by decide, by decide, 'k', by decide, by decide, by decide, by decide, rfl⟩
  · exact ⟨"q", by decide, by decide, by decide, 'q', by decide, by decide, by decide, by decide, rfl⟩
  · exact ⟨"r", by decide, by decide, by decide, 'r', by decide, by decide, by decide, by decide, rfl⟩
  · exact ⟨"b", by decide, by decide, by decide, 'b', by decide, by decide, by decide, by decide, rfl⟩
  · exact ⟨"n", by decide, by decide, by decide, 'n', by decide, by decide, by decide, by decide, rfl⟩
  · exact ⟨"p", by decide, by decide, by decide, 'p', by decide, by decide, by decide, by decide, rfl⟩

theorem digitFacts (e : Nat) (h1 : 1 ≤ e) (h2 : e ≤ 8) :
    ∃ c : Char, (toString e).data = [c] ∧ c ≠ '/' ∧ c.isDigit = true ∧ c ≠ ' '
      ∧ c.toNat - ('0').toNat = e := by
  interval_cases e
  · exact ⟨'1', by decide, by decide, by decide, by decide, by decide⟩
  · exact ⟨'2', by decide, by decide, by decide, by decide, by decide⟩
  · exact ⟨'3', by decide, by decide, by decide, by decide, by decide⟩
  · exact ⟨'4', by decide, by decide, by decide, by decide, by decide⟩
  · exact ⟨'5', by decide, by decide, by decide, by decide, by decide⟩
  · exact ⟨'6', by decide, by decide, by decide, by decide, by decide⟩
  · exact ⟨'7', by decide, by decide, by decide, by decide, by decide⟩
  · exact ⟨'8', by decide, by decide, by decide, by decide, by decide⟩

theorem sqInj : ∀ f1 ∈ List.range 8, ∀ f2 ∈ List.range 8, ∀ r1 ∈ RANKS, ∀ r2 ∈ RANKS,
    sqStr f1 (r1 : Int) = sqStr f2 (r2 : Int) → f1 = f2 ∧ r1 = r2 := by decide

theorem lookupSq_mem {obj : PosObj} {s p : String} (h : lookupSq obj s = some p) :
    (s, p) ∈ obj := by
  induction obj with
  | nil => simp [lookupSq] at h
  | cons kv rest ih =>
    unfold lookupSq at h
    split at h
    · next hk =>
      injection h with h2
      have hkv : kv = (s, p) := by
        obtain ⟨a, b⟩ := kv
        simp only at hk h2
        rw [hk, h2]
      rw [hkv]
      exact List.mem_cons_self _ _
    · exact List.mem_cons_of_mem _ (ih h)

theorem jsGet_some_lookup {obj : PosObj} {s p : String} (h : jsGet obj s = some p) :
    lookupSq obj s = some p := by
  unfold jsGet at h
  rcases hl : lookupSq obj s with _ | v
  · rw [hl] at h
    exact absurd h (by simp)
  · rw [hl] at h
    change (if v = "" then none else some v) = some p at h
    by_cases hv : v = ""
    · rw [if_pos hv] at h
      exact absurd h (by simp)
    · rw [if_neg hv] at h
      injection h with h2
      rw [h2]

theorem jsGet_wf_code {obj : PosObj} (hwf : WellFormedPos obj) {s p : String}
    (h : jsGet obj s = some p) : p ∈ pieceCodes ∧ s ∈ boardSquares := by
  have hmem := lookupSq_mem (jsGet_some_lookup h)
  have := hwf _ hmem
  exact ⟨this.2, this.1⟩

/-! ### Encoding: the placement fold -/

theorem exceptOkBind {α β : Type} (x : α) (f : α → Except String β) :
    (Except.ok x >>= f) = f x := rfl

theorem exceptErrBind {α β : Type} (e : String) (f : α → Except String β) :
    ((Except.error e : Except String α) >>= f) = Except.error e := rfl

theorem encSquare_none {obj : PosObj} {r f : Nat} (st : EncSt)
    (h : jsGet obj (sqStr f (r : Int)) = none) :
    encSquare obj r f st = Except.ok { st with empty := st.empty + 1 } := by
  unfold encSquare
  rw [h]

theorem encSquare_some {obj : PosObj} {r f : Nat} (st : EncSt) {p sym : String}
    (h : jsGet obj (sqStr f (r : Int)) = some p)
    (hnp : ¬((r = 1 ∨ r = 8) ∧ (p = "wP" ∨ p = "bP")))
    (hs : pieceToSymbol p = some sym) :
    encSquare obj r f st =
      Except.ok
        ⟨(if st.empty ≠ 0 then st.placement ++ toString st.empty else st.placement) ++ sym,
          st.wK + (if sym = "K" then 1 else 0),
          st.bK + (if sym = "k" then 1 else 0), 0⟩ := by
  unfold encSquare
  rw [h]
  simp only [if_neg hnp, hs]
  by_cases he : st.empty ≠ 0
  · simp only [if_pos he]
  · simp only [if_neg he]

theorem encSquare_pawn {obj : PosObj} {r f : Nat} (st : EncSt) {p : String}
    (h : jsGet obj (sqStr f (r : Int)) = some p)
    (hr : r = 1 ∨ r = 8) (hp : p = "wP" ∨ p = "bP") :
    encSquare obj r f st =
      Except.error ("Pawns cannot be on rank " ++ toString r ++ ". Promote them.") := by
  unfold encSquare
  rw [h]
  simp only [if_pos (And.intro hr hp)]

theorem encFiles_ok (obj : PosObj) (r : Nat) :
    ∀ fs : List Nat, (∀ f ∈ fs, cellOK obj r f) → ∀ st : EncSt,
      fs.foldlM (fun st f => encSquare obj r f st) st =
        Except.ok ⟨st.placement ++ segCore obj r fs st.empty,
          st.wK + rankCount obj "wK" r fs,
          st.bK + rankCount obj "bK" r fs,
          trailEmpty obj r fs st.empty⟩ := by
  intro fs
  induction fs with
  | nil =>
    intro _ st
    obtain ⟨pl, w, b, e⟩ := st
    simp only [List.foldlM_nil, segCore, trailEmpty, rankCount, List.filter_nil,
      List.length_nil, Nat.add_zero, String.append_empty]
    rfl
  | cons f rest ih =>
    intro hok st
    have hf := hok f (List.mem_cons_self _ _)
    have hrest : ∀ g ∈ rest, cellOK obj r g := fun g hg => hok g (List.mem_cons_of_mem _ hg)
    rw [List.foldlM_cons]
    rcases hcell : jsGet obj (sqStr f (r : Int)) with _ | p
    · rw [encSquare_none st hcell, exceptOkBind, ih hrest]
      simp only [segCore, trailEmpty, rankCount, List.filter_cons, hcell]
      simp
    · obtain ⟨hcode, hnopawn⟩ := hf p hcell
      obtain ⟨sym, hsym, hK, hk2, -⟩ := codeFacts p hcode
      rw [encSquare_some st hcell hnopawn hsym, exceptOkBind, ih hrest]
      simp only [segCore, trailEmpty, rankCount, List.filter_cons, hcell]
      congr 1
      obtain ⟨pl, w, b, e⟩ := st
      simp only [EncSt.mk.injEq]
      refine ⟨?_, ?_, ?_, trivial⟩
      · rw [hsym]
        simp only [Option.getD_some]
        by_cases he : e ≠ 0
        · simp only [if_pos he, String.append_assoc]
        · simp only [if_neg he, String.empty_append, String.append_assoc]
      · by_cases hwp : p = "wK"
        · rw [if_pos (hK.mpr hwp)]
          simp only [hwp, List.length_cons]
          simp
          omega
        · rw [if_neg (fun hs2 => hwp (hK.mp hs2))]
          simp [hwp]
      · by_cases hbp : p = "bK"
        · rw [if_pos (hk2.mpr hbp)]
          simp only [hbp, List.length_cons]
          simp
          omega
        · rw [if_neg (fun hs2 => hbp (hk2.mp hs2))]
          simp [hbp]

/-! ### Encoding: rank loop and full scan -/

theorem countPiece_eq (obj : PosObj) (p : String) :
    countPiece obj p = (RANKS.map (fun r => rankCount obj p r (List.range 8))).sum := rfl

theorem encRank_ok (obj : PosObj) (r : Nat) (hok : ∀ f ∈ List.range 8, cellOK obj r f)
    (st0 : EncSt) :
    encRank obj r st0 =
      Except.ok ⟨st0.placement ++ rankSeg obj r ++ (if r ≠ 1 then "/" else ""),
        st0.wK + rankCount obj "wK" r (List.range 8),
        st0.bK + rankCount obj "bK" r (List.range 8), 0⟩ := by
  unfold encRank
  rw [encFiles_ok obj r _ hok { st0 with empty := 0 }, exceptOkBind]
  simp only
  by_cases ht : trailEmpty obj r (List.range 8) 0 ≠ 0
  · rw [if_pos ht]
    by_cases hr : r ≠ 1
    · rw [if_pos hr, if_pos hr]
      simp only [rankSeg, if_pos ht, String.append_assoc]
      rfl
    · rw [if_neg hr, if_neg hr]
      simp only [rankSeg, if_pos ht, String.append_assoc, String.append_empty]
      rfl
  · rw [if_neg ht]
    have ht0 : trailEmpty obj r (List.range 8) 0 = 0 := by omega
    by_cases hr : r ≠ 1
    · rw [if_pos hr, if_pos hr]
      simp only [rankSeg, if_neg ht, String.append_assoc, String.append_empty]
      rw [ht0]
      rfl
    · rw [if_neg hr, if_neg hr]
      simp only [rankSeg, if_neg ht, String.append_assoc, String.append_empty]
      rw [ht0]
      rfl

theorem encRanks_ok (obj : PosObj) :
    ∀ rs : List Nat, (∀ r ∈ rs, ∀ f ∈ List.range 8, cellOK obj r f) → ∀ st : EncSt,
      rs.foldlM (fun st r => encRank obj r st) st =
        Except.ok ⟨st.placement ++ placementOf obj rs,
          st.wK + (rs.map (fun r => rankCount obj "wK" r (List.range 8))).sum,
          st.bK + (rs.map (fun r => rankCount obj "bK" r (List.range 8))).sum,
          if rs.isEmpty then st.empty else 0⟩ := by
  intro rs
  induction rs with
  | nil =>
    intro _ st
    obtain ⟨pl, w, b, e⟩ := st
    simp only [List.foldlM_nil, placementOf, List.map_nil, List.sum_nil, Nat.add_zero,
      String.append_empty, List.isEmpty_nil, if_pos rfl]
    rfl
  | cons r rest ih =>
    intro hok st
    have hr := hok r (List.mem_cons_self _ _)
    have hrest : ∀ g ∈ rest, ∀ f ∈ List.range 8, cellOK obj g f :=
      fun g hg => hok g (List.mem_cons_of_mem _ hg)
    rw [List.foldlM_cons, encRank_ok obj r hr st, exceptOkBind, ih hrest]
    simp only [placementOf, List.map_cons, List.sum_cons, List.isEmpty_cons]
    congr 1
    simp only [EncSt.mk.injEq]
    refine ⟨by simp [String.append_assoc], by omega, by omega, ?_⟩
    by_cases hre : rest.isEmpty
    · simp [hre]
    · simp [hre]

theorem encFiles_pawn_error (obj : PosObj) (r : Nat) (hr : r = 1 ∨ r = 8) :
    ∀ fs : List Nat,
      (∀ f ∈ fs, ∀ p, jsGet obj (sqStr f (r : Int)) = some p → p ∈ pieceCodes) →
      (∃ f ∈ fs, jsGet obj (sqStr f (r : Int)) = some "wP"
        ∨ jsGet obj (sqStr f (r : Int)) = some "bP") →
      ∀ st : EncSt, fs.foldlM (fun st f => encSquare obj r f st) st =
        Except.error ("Pawns cannot be on rank " ++ toString r ++ ". Promote them.") := by
  intro fs
  induction fs with
  | nil =>
    rintro _ ⟨f, hf, _⟩
    exact absurd hf (List.not_mem_nil f)
  | cons f rest ih =>
    rintro hok ⟨g, hg, hpawn⟩ st
    have hcodes : ∀ f2 ∈ rest, ∀ p, jsGet obj (sqStr f2 (r : Int)) = some p → p ∈ pieceCodes :=
      fun f2 h2 => hok f2 (List.mem_cons_of_mem _ h2)
    rw [List.foldlM_cons]
    rcases hcell : jsGet obj (sqStr f (r : Int)) with _ | p
    · have hgr : g ∈ rest := by
        rcases List.mem_cons.mp hg with h1 | h1
        · subst h1
          rw [hcell] at hpawn
          rcases hpawn with h | h <;> exact absurd h (by simp)
        · exact h1
      rw [encSquare_none st hcell, exceptOkBind]
      exact ih hcodes ⟨g, hgr, hpawn⟩ _
    · by_cases hp : p = "wP" ∨ p = "bP"
      · rw [encSquare_pawn st hcell hr hp, exceptErrBind]
      · have hcode := hok f (List.mem_cons_self _ _) p hcell
        obtain ⟨sym, hsym, -, -, -⟩ := codeFacts p hcode
        have hgr : g ∈ rest := by
          rcases List.mem_cons.mp hg with h1 | h1
          · subst h1
            rw [hcell] at hpawn
            rcases hpawn with h | h
            · exact absurd (Or.inl (by injection h)) hp
            · exact absurd (Or.inr (by injection h)) hp
          · exact h1
        rw [encSquare_some st hcell (fun hc => hp hc.2) hsym, exceptOkBind]
        exact ih hcodes ⟨g, hgr, hpawn⟩ _

theorem encRank_pawn_error (obj : PosObj) (r : Nat) (hr : r = 1 ∨ r = 8)
    (hok : ∀ f ∈ List.range 8, ∀ p, jsGet obj (sqStr f (r : Int)) = some p → p ∈ pieceCodes)
    (hex : ∃ f ∈ List.range 8, jsGet obj (sqStr f (r : Int)) = some "wP"
      ∨ jsGet obj (sqStr f (r : Int)) = some "bP") (st0 : EncSt) :
    encRank obj r st0 =
      Except.error ("Pawns cannot be on rank " ++ toString r ++ ". Promote them.") := by
  unfold encRank
  rw [encFiles_pawn_error obj r hr (List.range 8) hok hex { st0 with empty := 0 }, exceptErrBind]

theorem wf_cellOK {obj : PosObj} (hwf : WellFormedPos obj) (hnp : noPawnBackRank obj) :
    ∀ r f : Nat, f ∈ List.range 8 → cellOK obj r f := by
  intro r f hf p hp
  refine ⟨(jsGet_wf_code hwf hp).1, ?_⟩
  rintro ⟨hr18, hpw⟩
  have hmem : r ∈ ([1, 8] : List Nat) := by
    rcases hr18 with h | h <;> simp [h]
  have hn := hnp f hf r hmem
  rcases hpw with hpw | hpw
  · exact hn.1 (hpw ▸ hp)
  · exact hn.2 (hpw ▸ hp)

theorem posObjToFen_ok (obj : PosObj) (turn : Turn) (cf : Castling)
    (hwf : WellFormedPos obj) (hnp : noPawnBackRank obj)
    (hwk : countPiece obj "wK" = 1) (hbk : countPiece obj "bK" = 1) :
    posObjToFen obj turn cf =
      Except.ok (placementOf obj RANKS ++ " " ++ turn.str ++ " " ++ castleStr cf ++ " "
        ++ autoDetectEnPassant obj turn ++ " 0 1") := by
  unfold posObjToFen
  rw [encRanks_ok obj RANKS (fun r _ f hf => wf_cellOK hwf hnp r f hf) ⟨"", 0, 0, 0⟩,
    exceptOkBind]
  rw [countPiece_eq] at hwk hbk
  simp only [Nat.zero_add]
  rw [if_neg (by omega : ¬((RANKS.map (fun r => rankCount obj "wK" r (List.range 8))).sum ≠ 1
    ∨ (RANKS.map (fun r => rankCount obj "bK" r (List.range 8))).sum ≠ 1))]
  rw [String.empty_append]

theorem posObjToFen_kings_error (obj : PosObj) (turn : Turn) (cf : Castling)
    (hwf : WellFormedPos obj) (hnp : noPawnBackRank obj)
    (hk : ¬(countPiece obj "wK" = 1 ∧ countPiece obj "bK" = 1)) :
    posObjToFen obj turn cf =
      Except.error ("Place exactly one king per side (found W:" ++ toString (countPiece obj "wK")
        ++ ", B:" ++ toString (countPiece obj "bK") ++ ").") := by
  unfold posObjToFen
  rw [encRanks_ok obj RANKS (fun r _ f hf => wf_cellOK hwf hnp r f hf) ⟨"", 0, 0, 0⟩,
    exceptOkBind]
  simp only [Nat.zero_add]
  rw [if_pos]
  · rw [countPiece_eq obj "wK", countPiece_eq obj "bK"]
  · rw [countPiece_eq obj "wK", countPiece_eq obj "bK"] at hk
    omega

/-! ### Decoding the generated placement -/

theorem decChars_nil (st : DecSt) : decChars [] st = Except.ok st := rfl

theorem decChars_cons (c : Char) (cs : List Char) (st : DecSt) :
    decChars (c :: cs) st = decodeChar st c >>= fun st2 => decChars cs st2 := by
  unfold decChars
  rw [List.foldlM_cons]

theorem decodeChar_slash (st : DecSt) :
    decodeChar st '/' = Except.ok { st with rank := st.rank - 1, file := 0 } := rfl

theorem decodeChar_digit (st : DecSt) {c : Char} (h1 : c ≠ '/') (h2 : c.isDigit = true) :
    decodeChar st c = Except.ok { st with file := st.file + (c.toNat - ('0').toNat) } := by
  unfold decodeChar
  rw [if_neg h1, if_pos h2]

theorem decodeChar_sym (st : DecSt) {c : Char} {p : String} (h1 : c ≠ '/')
    (h2 : c.isDigit = false) (h3 : symbolToPiece c = Except.ok p) :
    decodeChar st c =
      Except.ok { st with pos := (sqStr st.file st.rank, p) :: st.pos, file := st.file + 1 } := by
  unfold decodeChar
  rw [if_neg h1, if_neg (by simp [h2]), h3, exceptOkBind]

theorem decChars_digitStr (e : Nat) (h1 : 1 ≤ e) (h2 : e ≤ 8) (st : DecSt) (rest : List Char) :
    decChars ((toString e).data ++ rest) st =
      decChars rest { st with file := st.file + e } := by
  obtain ⟨c, hdata, hslash, hdig, -, hval⟩ := digitFacts e h1 h2
  rw [hdata, List.cons_append, List.nil_append, decChars_cons,
    decodeChar_digit st hslash hdig, exceptOkBind, hval]

theorem trailEmpty_le (obj : PosObj) (r : Nat) :
    ∀ (fs : List Nat) (e : Nat), trailEmpty obj r fs e ≤ e + fs.length := by
  intro fs
  induction fs with
  | nil => intro e; simp [trailEmpty]
  | cons f rest ih =>
    intro e
    rcases hcell : jsGet obj (sqStr f (r : Int)) with _ | p
    · simp only [trailEmpty, hcell, List.length_cons]
      have := ih (e + 1)
      omega
    · simp only [trailEmpty, hcell, List.length_cons]
      have := ih 0
      omega

theorem decChars_segCore (obj : PosObj) (r : Nat) :
    ∀ (n f0 e : Nat), e ≤ f0 → f0 + n ≤ 8 →
      (∀ f ∈ List.range' f0 n, cellCode obj r f) →
      ∀ (pos : PosObj) (rest : List Char),
      decChars ((segCore obj r (List.range' f0 n) e).data ++ rest) ⟨pos, (r : Int), f0 - e⟩ =
        decChars rest ⟨rankEntriesRev obj r (List.range' f0 n) pos, (r : Int),
          (f0 + n) - trailEmpty obj r (List.range' f0 n) e⟩ := by
  intro n
  induction n with
  | zero =>
    intro f0 e he _ _ pos rest
    simp only [List.range', segCore, trailEmpty, rankEntriesRev]
    rfl
  | succ n ih =>
    intro f0 e he hle hok pos rest
    rw [List.range'_succ]
    have hok2 : ∀ f ∈ List.range' (f0 + 1) n, cellCode obj r f :=
      fun f hf => hok f (List.mem_cons_of_mem _ hf)
    rcases hcell : jsGet obj (sqStr f0 (r : Int)) with _ | p
    · simp only [segCore, trailEmpty, rankEntriesRev, hcell]
      have hfile : f0 - e = (f0 + 1) - (e + 1) := by omega
      rw [hfile, ih (f0 + 1) (e + 1) (by omega) (by omega) hok2 pos rest]
      have harith : f0 + 1 + n = f0 + (n + 1) := by omega
      rw [harith]
    · have hcode := hok f0 (List.mem_cons_self _ _) p hcell
      obtain ⟨sym, hsym, -, -, c, hdata, hsl, hdig, -, hback⟩ := codeFacts p hcode
      simp only [segCore, trailEmpty, rankEntriesRev, hcell, hsym, Option.getD_some]
      have harith : f0 + 1 + n = f0 + (n + 1) := by omega
      by_cases hez : e ≠ 0
      · rw [if_pos hez]
        rw [String.data_append, String.data_append, List.append_assoc, List.append_assoc,
          decChars_digitStr e (by omega) (by omega)]
        simp only
        have hf0 : f0 - e + e = f0 := by omega
        rw [hf0, hdata, List.cons_append, List.nil_append, decChars_cons,
          decodeChar_sym _ hsl hdig hback, exceptOkBind]
        simp only
        have := ih (f0 + 1) 0 (by omega) (by omega) hok2 ((sqStr f0 (r : Int), p) :: pos) rest
        rw [Nat.sub_zero] at this
        rw [this, harith]
      · rw [if_neg hez]
        have he0 : e = 0 := by omega
        subst he0
        rw [String.empty_append, String.data_append, List.append_assoc, hdata,
          List.cons_append, List.nil_append, decChars_cons, Nat.sub_zero,
          decodeChar_sym _ hsl hdig hback, exceptOkBind]
        simp only
        have := ih (f0 + 1) 0 (by omega) (by omega) hok2 ((sqStr f0 (r : Int), p) :: pos) rest
        rw [Nat.sub_zero] at this
        rw [this, harith]

theorem decChars_rankSeg (obj : PosObj) (r : Nat)
    (hok : ∀ f ∈ List.range 8, cellCode obj r f) (pos : PosObj) (rest : List Char) :
    decChars ((rankSeg obj r).data ++ rest) ⟨pos, (r : Int), 0⟩ =
      decChars rest ⟨rankEntriesRev obj r (List.range 8) pos, (r : Int), 8⟩ := by
  unfold rankSeg
  rw [List.range_eq_range'] at hok ⊢
  have hseg := decChars_segCore obj r 8 0 0 (by omega) (by omega) hok pos
  by_cases ht : trailEmpty obj r (List.range' 0 8) 0 ≠ 0
  · rw [if_pos ht]
    have htle : trailEmpty obj r (List.range' 0 8) 0 ≤ 8 := by
      have := trailEmpty_le obj r (List.range' 0 8) 0
      simpa using this
    rw [String.data_append, List.append_assoc,
      hseg ((toString (trailEmpty obj r (List.range' 0 8) 0)).data ++ rest),
      decChars_digitStr _ (by omega) htle]
    simp only
    have : 0 + 8 - trailEmpty obj r (List.range' 0 8) 0 + trailEmpty obj r (List.range' 0 8) 0
        = 8 := by omega
    rw [this]
  · rw [if_neg ht]
    rw [String.append_empty, hseg rest]
    have : 0 + 8 - trailEmpty obj r (List.range' 0 8) 0 = 8 := by omega
    rw [this]

/-! ### Splitting the generated exchange string -/

theorem splitCh_nosep (sep : Char) : ∀ xs : List Char, sep ∉ xs → splitCh sep xs = [xs] := by
  intro xs
  induction xs with
  | nil => intro _; rfl
  | cons x xs ih =>
    intro hn
    have hx : x ≠ sep := fun h => hn (h ▸ List.mem_cons_self x xs)
    simp only [splitCh, if_neg hx, ih (fun h => hn (List.mem_cons_of_mem _ h))]

theorem splitCh_sep (sep : Char) : ∀ (xs ys : List Char), sep ∉ xs →
    splitCh sep (xs ++ sep :: ys) = xs :: splitCh sep ys := by
  intro xs
  induction xs with
  | nil =>
    intro ys _
    simp [splitCh]
  | cons x xs ih =>
    intro ys hn
    have hx : x ≠ sep := fun h => hn (h ▸ List.mem_cons_self x xs)
    have hxs : sep ∉ xs := fun h => hn (List.mem_cons_of_mem _ h)
    simp only [List.cons_append, splitCh, if_neg hx, List.append_eq, ih ys hxs]

theorem splitData_sep (s t : String) (h : ' ' ∉ s.data) :
    splitCh ' ' (s ++ " " ++ t).data = s.data :: splitCh ' ' t.data := by
  have hd : (s ++ " " ++ t).data = s.data ++ ' ' :: t.data := by
    rw [String.data_append, String.data_append]
    rw [show (" " : String).data = [' '] from rfl]
    rw [List.append_assoc]
    rfl
  rw [hd, splitCh_sep ' ' s.data t.data h]

theorem jsSplit_six (pl t c ep : String) (h1 : ' ' ∉ pl.data) (h2 : ' ' ∉ t.data)
    (h3 : ' ' ∉ c.data) (h4 : ' ' ∉ ep.data) :
    jsSplit ' ' (pl ++ " " ++ t ++ " " ++ c ++ " " ++ ep ++ " 0 1") =
      [pl, t, c, ep, "0", "1"] := by
  have hre : pl ++ " " ++ t ++ " " ++ c ++ " " ++ ep ++ " 0 1"
      = pl ++ " " ++ (t ++ " " ++ (c ++ " " ++ (ep ++ " " ++ ("0" ++ " " ++ "1")))) := by
    rw [show (" 0 1" : String) = " " ++ ("0" ++ " " ++ "1") from rfl]
    simp [String.append_assoc]
  unfold jsSplit
  rw [hre, splitData_sep _ _ h1, splitData_sep _ _ h2, splitData_sep _ _ h3,
    splitData_sep _ _ h4, splitData_sep _ _ (by decide),
    splitCh_nosep ' ' _ (by decide)]
  rfl

/-! ### The generated fields contain no separator -/

theorem noSpace_segCore (obj : PosObj) (r : Nat) :
    ∀ (fs : List Nat) (e : Nat), e + fs.length ≤ 8 →
      (∀ f ∈ fs, cellCode obj r f) → ' ' ∉ (segCore obj r fs e).data := by
  intro fs
  induction fs with
  | nil => intro e _ _; simp [segCore]
  | cons f rest ih =>
    intro e hle hok
    have hok2 : ∀ g ∈ rest, cellCode obj r g := fun g hg => hok g (List.mem_cons_of_mem _ hg)
    rcases hcell : jsGet obj (sqStr f (r : Int)) with _ | p
    · simp only [segCore, hcell]
      exact ih (e + 1) (by simp at hle ⊢; omega) hok2
    · obtain ⟨sym, hsym, -, -, ch, hdata, -, -, hsp, -⟩ :=
        codeFacts p (hok f (List.mem_cons_self _ _) p hcell)
      simp only [segCore, hcell, hsym, Option.getD_some]
      rw [String.data_append, String.data_append]
      intro hmem
      rcases List.mem_append.mp hmem with hmem | hmem
      · rcases List.mem_append.mp hmem with hmem | hmem
        · by_cases hez : e ≠ 0
          · rw [if_pos hez] at hmem
            obtain ⟨cd, hcd, -, -, hcsp, -⟩ :=
              digitFacts e (by omega) (by simp at hle; omega)
            rw [hcd] at hmem
            simp at hmem
            exact hcsp hmem.symm
          · rw [if_neg hez] at hmem
            simp at hmem
        · rw [hdata] at hmem
          simp at hmem
          exact hsp hmem.symm
      · exact ih 0 (by simp at hle ⊢; omega) hok2 hmem

theorem noSpace_rankSeg (obj : PosObj) (r : Nat)
    (hok : ∀ f ∈ List.range 8, cellCode obj r f) : ' ' ∉ (rankSeg obj r).data := by
  unfold rankSeg
  rw [String.data_append]
  intro hmem
  rcases List.mem_append.mp hmem with hmem | hmem
  · exact noSpace_segCore obj r (List.range 8) 0 (by simp) hok hmem
  · by_cases ht : trailEmpty obj r (List.range 8) 0 ≠ 0
    · rw [if_pos ht] at hmem
      have htle : trailEmpty obj r (List.range 8) 0 ≤ 8 := by
        have := trailEmpty_le obj r (List.range 8) 0
        simpa using this
      obtain ⟨cd, hcd, -, -, hcsp, -⟩ := digitFacts _ (by omega) htle
      rw [hcd] at hmem
      simp at hmem
      exact hcsp hmem.symm
    · rw [if_neg ht] at hmem
      simp at hmem

theorem noSpace_placementOf (obj : PosObj)
    (hok : ∀ r f, f ∈ List.range 8 → cellCode obj r f) :
    ∀ rs : List Nat, ' ' ∉ (placementOf obj rs).data := by
  intro rs
  induction rs with
  | nil => simp [placementOf]
  | cons r rest ih =>
    simp only [placementOf]
    rw [String.data_append, String.data_append]
    intro hmem
    rcases List.mem_append.mp hmem with hmem | hmem
    · rcases List.mem_append.mp hmem with hmem | hmem
      · exact noSpace_rankSeg obj r (fun f hf => hok r f hf) hmem
      · by_cases hr : r ≠ 1
        · rw [if_pos hr] at hmem
          simp at hmem
        · rw [if_neg hr] at hmem
          simp at hmem
    · exact ih hmem

theorem noSpace_turnStr (turn : Turn) : ' ' ∉ (turn.str).data := by
  cases turn <;> decide

theorem noSpace_castleStr (cf : Castling) : ' ' ∉ (castleStr cf).data := by
  obtain ⟨K, Q, k, q⟩ := cf
  cases K <;> cases Q <;> cases k <;> cases q <;> decide

theorem scanEP_shape (obj : PosObj) (pR eR : Int) (en fr : String) :
    ∀ s ∈ scanEP obj pR eR en fr, ∃ idx ∈ List.range 8, s = sqStr idx eR := by
  intro s hs
  unfold scanEP at hs
  obtain ⟨idx, hidx, hg⟩ := List.mem_filterMap.mp hs
  unfold epProbe at hg
  refine ⟨idx, hidx, ?_⟩
  by_cases h1 : jsGet obj (sqStr idx pR) ≠ some en
  · rw [if_pos h1] at hg
    exact absurd hg (by simp)
  · rw [if_neg h1] at hg
    by_cases h2 : (jsGet obj (sqStr idx eR)).isSome = true
    · rw [if_pos h2] at hg
      exact absurd hg (by simp)
    · rw [if_neg h2] at hg
      by_cases h3 : (0 < idx ∧ jsGet obj (sqStr (idx - 1) pR) = some fr)
          ∨ (idx < 7 ∧ jsGet obj (sqStr (idx + 1) pR) = some fr)
      · rw [if_pos h3] at hg
        injection hg with hg
        exact hg.symm
      · rw [if_neg h3] at hg
        exact absurd hg (by simp)

theorem noSpace_ep (obj : PosObj) (turn : Turn) :
    ' ' ∉ (autoDetectEnPassant obj turn).data := by
  unfold autoDetectEnPassant
  have hsq : ∀ idx ∈ List.range 8,
      ' ' ∉ (sqStr idx (6 : Int)).data ∧ ' ' ∉ (sqStr idx (3 : Int)).data := by decide
  rcases hc : epCands obj turn with _ | ⟨c, rest⟩
  · show (' ' ∈ ("-" : String).data) → False
    decide
  · rcases rest with _ | ⟨d, rest2⟩
    · have hcm : c ∈ epCands obj turn := by rw [hc]; exact List.mem_cons_self _ _
      cases turn
      · obtain ⟨idx, hidx, hshape⟩ := scanEP_shape obj 5 6 "bP" "wP" c hcm
        rw [hshape]
        exact (hsq idx hidx).1
      · obtain ⟨idx, hidx, hshape⟩ := scanEP_shape obj 4 3 "wP" "bP" c hcm
        rw [hshape]
        exact (hsq idx hidx).2
    · show (' ' ∈ ("-" : String).data) → False
      decide

/-! ### Decoding all ranks; recovering the piece mapping -/

theorem ranksDown_eq : RANKS = ranksDown 8 := by decide

theorem lookupSq_cons (k v s : String) (rest : PosObj) :
    lookupSq ((k, v) :: rest) s = if k = s then some v else lookupSq rest s := rfl

theorem rankFoldAcc_cons (obj : PosObj) (r : Nat) (rs : List Nat) (acc : PosObj) :
    rankFoldAcc obj (r :: rs) acc
      = rankFoldAcc obj rs (rankEntriesRev obj r (List.range 8) acc) := rfl

theorem decChars_ranks (obj : PosObj)
    (hok : ∀ r f : Nat, f ∈ List.range 8 → cellCode obj r f) :
    ∀ k : Nat, 1 ≤ k → k ≤ 8 → ∀ pos : PosObj,
      decChars (placementOf obj (ranksDown k)).data ⟨pos, (k : Int), 0⟩ =
        Except.ok ⟨rankFoldAcc obj (ranksDown k) pos, 1, 8⟩ := by
  intro k
  induction k with
  | zero => intro h1; omega
  | succ k ih =>
    intro _ h8 pos
    by_cases hk : k = 0
    · subst hk
      simp only [ranksDown, placementOf]
      rw [if_neg (by omega : ¬(1 ≠ 1)), String.append_empty, String.append_empty]
      have hdec := decChars_rankSeg obj 1 (fun f hf => hok 1 f hf) pos []
      rw [List.append_nil] at hdec
      rw [show ((1 : Nat) : Int) = (1 : Int) by norm_num] at hdec ⊢
      rw [hdec, decChars_nil]
      rfl
    · simp only [ranksDown, placementOf]
      rw [if_pos (by omega : k + 1 ≠ 1)]
      rw [String.data_append, String.data_append]
      rw [show ("/" : String).data = ['/'] from rfl]
      rw [List.append_assoc]
      rw [show (['/'] ++ (placementOf obj (ranksDown k)).data
        = '/' :: (placementOf obj (ranksDown k)).data) from rfl]
      rw [decChars_rankSeg obj (k + 1) (fun f hf => hok (k + 1) f hf) pos
        ('/' :: (placementOf obj (ranksDown k)).data)]
      rw [decChars_cons, decodeChar_slash, exceptOkBind]
      simp only
      rw [show ((k + 1 : Nat) : Int) - 1 = ((k : Nat) : Int) by push_cast; ring]
      rw [ih (by omega) (by omega) (rankEntriesRev obj (k + 1) (List.range 8) pos)]
      rfl

theorem mem_boardSquares {s : String} :
    s ∈ boardSquares
      ↔ ∃ r : Nat, r ∈ RANKS ∧ ∃ f : Nat, f ∈ List.range 8 ∧ s = sqStr f (r : Int) := by
  unfold boardSquares
  constructor
  · intro hs
    obtain ⟨l, hl, hsl⟩ := List.mem_flatten.mp hs
    obtain ⟨r, hr, hrl⟩ := List.mem_map.mp hl
    subst hrl
    obtain ⟨f, hf, hfs⟩ := List.mem_map.mp hsl
    exact ⟨r, hr, f, hf, hfs.symm⟩
  · rintro ⟨r, hr, f, hf, rfl⟩
    refine List.mem_flatten.mpr ⟨(List.range 8).map (fun f => sqStr f (r : Int)), ?_, ?_⟩
    · exact List.mem_map.mpr ⟨r, hr, rfl⟩
    · exact List.mem_map.mpr ⟨f, hf, rfl⟩

theorem jsGet_eq_lookup {obj : PosObj} (hwf : WellFormedPos obj) (s : String) :
    jsGet obj s = lookupSq obj s := by
  unfold jsGet
  rcases hl : lookupSq obj s with _ | v
  · rfl
  · have hv : v ∈ pieceCodes := (hwf _ (lookupSq_mem hl)).2
    show (if v = "" then none else some v) = some v
    rw [if_neg ?_]
    intro he
    subst he
    revert hv
    decide

theorem lookupSq_offboard {obj : PosObj} (hwf : WellFormedPos obj) {s : String}
    (hs : s ∉ boardSquares) : lookupSq obj s = none := by
  rcases hl : lookupSq obj s with _ | v
  · rfl
  · exact absurd (hwf _ (lookupSq_mem hl)).1 hs

theorem lookupSq_rankEntries_skip (obj : PosObj) (r : Nat) :
    ∀ (fs : List Nat) (acc : PosObj) (s : String),
      (∀ f ∈ fs, s ≠ sqStr f (r : Int)) →
      lookupSq (rankEntriesRev obj r fs acc) s = lookupSq acc s := by
  intro fs
  induction fs with
  | nil => intro acc s _; rfl
  | cons f rest ih =>
    intro acc s hne
    have hner : ∀ g ∈ rest, s ≠ sqStr g (r : Int) :=
      fun g hg => hne g (List.mem_cons_of_mem _ hg)
    rcases hcell : jsGet obj (sqStr f (r : Int)) with _ | p
    · simp only [rankEntriesRev, hcell]
      exact ih acc s hner
    · simp only [rankEntriesRev, hcell]
      rw [ih _ s hner, lookupSq_cons,
        if_neg (fun h => hne f (List.mem_cons_self _ _) h.symm)]

theorem lookupSq_rankEntries_mem (obj : PosObj) (r : Nat) :
    ∀ (fs : List Nat), fs.Nodup →
      (∀ f1 ∈ fs, ∀ f2 ∈ fs, sqStr f1 (r : Int) = sqStr f2 (r : Int) → f1 = f2) →
      ∀ (acc : PosObj) (f : Nat), f ∈ fs →
      lookupSq (rankEntriesRev obj r fs acc) (sqStr f (r : Int)) =
        match jsGet obj (sqStr f (r : Int)) with
        | some p => some p
        | none => lookupSq acc (sqStr f (r : Int)) := by
  intro fs
  induction fs with
  | nil =>
    intro _ _ acc f hf
    exact absurd hf (List.not_mem_nil f)
  | cons f0 rest ih =>
    intro hnd hinj acc f hf
    have hnd2 := (List.nodup_cons.mp hnd).2
    have hf0nr := (List.nodup_cons.mp hnd).1
    have hinj2 : ∀ f1 ∈ rest, ∀ f2 ∈ rest, sqStr f1 (r : Int) = sqStr f2 (r : Int) → f1 = f2 :=
      fun f1 h1 f2 h2 => hinj f1 (List.mem_cons_of_mem _ h1) f2 (List.mem_cons_of_mem _ h2)
    rcases List.mem_cons.mp hf with hff0 | hfr
    · subst hff0
      have hskip : ∀ g ∈ rest, sqStr f (r : Int) ≠ sqStr g (r : Int) := by
        intro g hg heq
        have := hinj f (List.mem_cons_self _ _) g (List.mem_cons_of_mem _ hg) heq
        exact hf0nr (this ▸ hg)
      rcases hcell : jsGet obj (sqStr f (r : Int)) with _ | p
      · simp only [rankEntriesRev, hcell]
        rw [lookupSq_rankEntries_skip obj r rest acc _ hskip]
      · simp only [rankEntriesRev, hcell]
        rw [lookupSq_rankEntries_skip obj r rest _ _ hskip, lookupSq_cons, if_pos rfl]
    · have hne : f ≠ f0 := fun h => hf0nr (h ▸ hfr)
      have hnsq : sqStr f0 (r : Int) ≠ sqStr f (r : Int) := by
        intro heq
        exact hne (hinj f hf f0 (List.mem_cons_self _ _) heq.symm)
      rcases hcell : jsGet obj (sqStr f0 (r : Int)) with _ | p
      · simp only [rankEntriesRev, hcell]
        exact ih hnd2 hinj2 acc f hfr
      · simp only [rankEntriesRev, hcell]
        rw [ih hnd2 hinj2 _ f hfr]
        rcases hcf : jsGet obj (sqStr f (r : Int)) with _ | q
        · simp only
          rw [lookupSq_cons, if_neg hnsq]
        · simp only

theorem lookupSq_rankFold_off (obj : PosObj) :
    ∀ (rs : List Nat) (acc : PosObj) (s : String),
      (∀ r ∈ rs, ∀ f ∈ List.range 8, s ≠ sqStr f (r : Int)) →
      lookupSq (rankFoldAcc obj rs acc) s = lookupSq acc s := by
  intro rs
  induction rs with
  | nil => intro acc s _; rfl
  | cons r rest ih =>
    intro acc s hne
    rw [rankFoldAcc_cons, ih _ s (fun g hg => hne g (List.mem_cons_of_mem _ hg))]
    exact lookupSq_rankEntries_skip obj r (List.range 8) acc s
      (fun f hf => hne r (List.mem_cons_self _ _) f hf)

theorem lookupSq_rankFold_mem (obj : PosObj) :
    ∀ (rs : List Nat), rs ⊆ RANKS → rs.Nodup →
      ∀ (acc : PosObj) (f r0 : Nat), f ∈ List.range 8 → r0 ∈ rs →
      lookupSq (rankFoldAcc obj rs acc) (sqStr f (r0 : Int)) =
        match jsGet obj (sqStr f (r0 : Int)) with
        | some p => some p
        | none => lookupSq acc (sqStr f (r0 : Int)) := by
  intro rs
  induction rs with
  | nil =>
    intro _ _ acc f r0 _ h
    exact absurd h (List.not_mem_nil r0)
  | cons r rest ih =>
    intro hsub hnd acc f r0 hf hr0
    have hrR : r ∈ RANKS := hsub (List.mem_cons_self _ _)
    have hsub2 : rest ⊆ RANKS := fun x hx => hsub (List.mem_cons_of_mem _ hx)
    have hnd2 := (List.nodup_cons.mp hnd).2
    have hrnr := (List.nodup_cons.mp hnd).1
    rw [rankFoldAcc_cons]
    rcases List.mem_cons.mp hr0 with hrr | hrr
    · subst hrr
      rw [lookupSq_rankFold_off obj rest _ _ ?_]
      · exact lookupSq_rankEntries_mem obj r0 (List.range 8) (List.nodup_range 8)
          (fun f1 h1 f2 h2 heq => (sqInj f1 h1 f2 h2 r0 hrR r0 hrR heq).1) acc f hf
      · intro r2 hr2 f2 hf2 heq
        have h12 : f = f2 ∧ r0 = r2 := sqInj f hf f2 hf2 r0 hrR r2 (hsub2 hr2) heq
        exact hrnr (h12.2 ▸ hr2)
    · have hr0R : r0 ∈ RANKS := hsub2 hrr
      have hne : r0 ≠ r := fun h => hrnr (h ▸ hrr)
      rw [ih hsub2 hnd2 _ f r0 hf hrr]
      rcases hcf : jsGet obj (sqStr f (r0 : Int)) with _ | q
      · simp only
        exact lookupSq_rankEntries_skip obj r (List.range 8) acc _ (fun f2 hf2 heq =>
          hne (sqInj f hf f2 hf2 r0 hr0R r hrR heq).2)
      · simp only

theorem lookup_boardEntries (obj : PosObj) (hwf : WellFormedPos obj) (s : String) :
    lookupSq (rankFoldAcc obj RANKS []) s = lookupSq obj s := by
  by_cases hs : s ∈ boardSquares
  · obtain ⟨r, hr, f, hf, rfl⟩ := mem_boardSquares.mp hs
    rw [lookupSq_rankFold_mem obj RANKS (fun x hx => hx) (by decide) [] f r hf hr]
    rw [← jsGet_eq_lookup hwf]
    rcases hcf : jsGet obj (sqStr f (r : Int)) with _ | q
    · rfl
    · rfl
  · rw [lookupSq_rankFold_off obj RANKS [] s ?_]
    · rw [lookupSq_offboard hwf hs]
      rfl
    · intro r hr f hf heq
      exact hs (heq ▸ mem_boardSquares.mpr ⟨r, hr, f, hf, rfl⟩)

/-! ### Decoder characterization and the codec claims -/

theorem fenToPosObj_eq (fen : String) :
    fenToPosObj fen =
      decChars ((jsSplit ' ' fen).headD "").data ⟨[], 8, 0⟩ >>= fun st =>
        Except.ok
          { pos := st.pos,
            turn := if (jsSplit ' ' fen).get? 1 = some "b" then Turn.b else Turn.w,
            castle :=
              { K := (match (jsSplit ' ' fen).get? 2 with
                      | some s => strIncludes s 'K'
                      | none => false),
                Q := (match (jsSplit ' ' fen).get? 2 with
                      | some s => strIncludes s 'Q'
                      | none => false),
                k := (match (jsSplit ' ' fen).get? 2 with
                      | some s => strIncludes s 'k'
                      | none => false),
                q := (match (jsSplit ' ' fen).get? 2 with
                      | some s => strIncludes s 'q'
                      | none => false) } } := rfl

/-- C1.  Round-trip of the position codec: any editor-form position with
exactly one king per color and no pawn on ranks 1 or 8 encodes successfully,
and decoding the produced exchange string recovers the same piece mapping, the
same side to move and the same four castling-rights booleans. -/
theorem codec_roundtrip (obj : PosObj) (turn : Turn) (cf : Castling)
    (hwf : WellFormedPos obj)
    (hwk : countPiece obj "wK" = 1) (hbk : countPiece obj "bK" = 1)
    (hnp : noPawnBackRank obj) :
    ∃ fen, posObjToFen obj turn cf = Except.ok fen ∧
      ∃ res, fenToPosObj fen = Except.ok res ∧
        (∀ s, lookupSq res.pos s = lookupSq obj s) ∧ res.turn = turn ∧ res.castle = cf := by
  have hcode : ∀ r f : Nat, f ∈ List.range 8 → cellCode obj r f :=
    fun r f _ p hp => (jsGet_wf_code hwf hp).1
  refine ⟨_, posObjToFen_ok obj turn cf hwf hnp hwk hbk, ?_⟩
  have hsplit : jsSplit ' ' (placementOf obj RANKS ++ " " ++ turn.str ++ " " ++ castleStr cf
      ++ " " ++ autoDetectEnPassant obj turn ++ " 0 1")
      = [placementOf obj RANKS, turn.str, castleStr cf, autoDetectEnPassant obj turn,
          "0", "1"] :=
    jsSplit_six _ _ _ _ (noSpace_placementOf obj hcode RANKS) (noSpace_turnStr turn)
      (noSpace_castleStr cf) (noSpace_ep obj turn)
  rw [fenToPosObj_eq, hsplit]
  simp only [List.headD_cons, List.get?_cons_succ, List.get?_cons_zero]
  have hdec : decChars (placementOf obj RANKS).data ⟨[], 8, 0⟩
      = Except.ok ⟨rankFoldAcc obj RANKS [], 1, 8⟩ := by
    rw [ranksDown_eq]
    have hr := decChars_ranks obj hcode 8 (by omega) (by omega) []
    rw [show ((8 : Nat) : Int) = (8 : Int) by norm_num] at hr
    exact hr
  rw [hdec, exceptOkBind]
  refine ⟨_, rfl, ?_, ?_, ?_⟩
  · intro s
    exact lookup_boardEntries obj hwf s
  · cases turn <;> rfl
  · obtain ⟨K, Q, k2, q2⟩ := cf
    cases K <;> cases Q <;> cases k2 <;> cases q2 <;> rfl

/-- Witness for C1 at the kings-only scenario of the specification (white king
d1, black king d8, white to move, no rights). -/
theorem codec_roundtrip_witness :
    ∃ fen, posObjToFen [("d1", "wK"), ("d8", "bK")] Turn.w ⟨false, false, false, false⟩
        = Except.ok fen ∧
      ∃ res, fenToPosObj fen = Except.ok res ∧
        (∀ s, lookupSq res.pos s = lookupSq [("d1", "wK"), ("d8", "bK")] s) ∧
        res.turn = Turn.w ∧ res.castle = ⟨false, false, false, false⟩ :=
  codec_roundtrip [("d1", "wK"), ("d8", "bK")] Turn.w ⟨false, false, false, false⟩
    (by decide) (by decide) (by decide) (by decide)

/-- C3.  Pawn-on-back-rank rejection: any editor-form position holding a pawn
on rank 1 or rank 8 fails to encode, with the error naming an offending rank,
and no exchange string is produced. -/
theorem pawn_backrank_reject (obj : PosObj) (turn : Turn) (cf : Castling)
    (hwf : WellFormedPos obj)
    (hp : ∃ f, f ∈ List.range 8 ∧ ∃ r, r ∈ ([1, 8] : List Nat) ∧
      (jsGet obj (sqStr f (r : Int)) = some "wP" ∨ jsGet obj (sqStr f (r : Int)) = some "bP")) :
    ∃ r : Nat, (r = 1 ∨ r = 8) ∧
      (∃ f, f ∈ List.range 8 ∧
        (jsGet obj (sqStr f (r : Int)) = some "wP"
          ∨ jsGet obj (sqStr f (r : Int)) = some "bP")) ∧
      posObjToFen obj turn cf
        = Except.error ("Pawns cannot be on rank " ++ toString r ++ ". Promote them.") := by
  have hcodes : ∀ r f : Nat, f ∈ List.range 8 →
      ∀ p, jsGet obj (sqStr f (r : Int)) = some p → p ∈ pieceCodes :=
    fun r f _ p hpc => (jsGet_wf_code hwf hpc).1
  by_cases h8 : ∃ f, f ∈ List.range 8 ∧
      (jsGet obj (sqStr f ((8 : Nat) : Int)) = some "wP"
        ∨ jsGet obj (sqStr f ((8 : Nat) : Int)) = some "bP")
  · refine ⟨8, Or.inr rfl, h8, ?_⟩
    unfold posObjToFen
    rw [show RANKS = 8 :: [7, 6, 5, 4, 3, 2, 1] from rfl, List.foldlM_cons,
      encRank_pawn_error obj 8 (Or.inr rfl) (fun f hf => hcodes 8 f hf)
        (by obtain ⟨f, hf, hpw⟩ := h8; exact ⟨f, hf, hpw⟩) _, exceptErrBind, exceptErrBind]
  · obtain ⟨f1, hf1, r1, hr1, hpw1⟩ := hp
    have hr1c : r1 = 1 := by
      have h18 : r1 = 1 ∨ r1 = 8 := by simpa using hr1
      rcases h18 with h | h
      · exact h
      · exact absurd ⟨f1, hf1, h ▸ hpw1⟩ h8
    subst hr1c
    refine ⟨1, Or.inl rfl, ⟨f1, hf1, hpw1⟩, ?_⟩
    have hok27 : ∀ r ∈ ([8, 7, 6, 5, 4, 3, 2] : List Nat), ∀ f ∈ List.range 8,
        cellOK obj r f := by
      intro r hr f hf
      intro p hpc
      refine ⟨hcodes r f hf p hpc, ?_⟩
      rintro ⟨h18, hpw⟩
      fin_cases hr
      · exact h8 ⟨f, hf, by
          rcases hpw with h | h
          · exact Or.inl (h ▸ hpc)
          · exact Or.inr (h ▸ hpc)⟩
      all_goals rcases h18 with h | h <;> omega
    unfold posObjToFen
    rw [show RANKS = [8, 7, 6, 5, 4, 3, 2] ++ [1] from rfl, List.foldlM_append,
      encRanks_ok obj [8, 7, 6, 5, 4, 3, 2] hok27 ⟨"", 0, 0, 0⟩, exceptOkBind,
      List.foldlM_cons,
      encRank_pawn_error obj 1 (Or.inl rfl) (fun f hf => hcodes 1 f hf)
        ⟨f1, hf1, hpw1⟩ _, exceptErrBind, exceptErrBind]

/-- Witness for C3: a lone pawn on a8 is rejected with the message naming
rank 8. -/
theorem pawn_backrank_reject_witness :
    posObjToFen [("a8", "wP")] Turn.w ⟨false, false, false, false⟩
      = Except.error "Pawns cannot be on rank 8. Promote them." := by
  obtain ⟨r, hr18, hex, herr⟩ :=
    pawn_backrank_reject [("a8", "wP")] Turn.w ⟨false, false, false, false⟩
      (by decide) ⟨0, by decide, 8, by decide, by decide⟩
  rcases hr18 with h1 | h8
  · subst h1
    exact absurd hex (by decide)
  · subst h8
    rw [herr]
    rfl

/-- C4.  King-count rejection: any editor-form position without back-rank
pawns and without exactly one king per color fails to encode after the full
placement scan, with the error reporting both king counts. -/
theorem kingcount_reject (obj : PosObj) (turn : Turn) (cf : Castling)
    (hwf : WellFormedPos obj) (hnp : noPawnBackRank obj)
    (hk : ¬(countPiece obj "wK" = 1 ∧ countPiece obj "bK" = 1)) :
    posObjToFen obj turn cf =
      Except.error ("Place exactly one king per side (found W:"
        ++ toString (countPiece obj "wK") ++ ", B:" ++ toString (countPiece obj "bK")
        ++ ").") :=
  posObjToFen_kings_error obj turn cf hwf hnp hk

/-- Witness for C4: two white kings and one black king are rejected with the
counts reported. -/
theorem kingcount_reject_witness :
    posObjToFen [("d1", "wK"), ("e1", "wK"), ("d8", "bK")] Turn.b
        ⟨false, false, false, false⟩
      = Except.error "Place exactly one king per side (found W:2, B:1)." := by
  have h := kingcount_reject [("d1", "wK"), ("e1", "wK"), ("d8", "bK")] Turn.b
    ⟨false, false, false, false⟩ (by decide) (by decide) (by decide)
  rw [h]
  rw [show countPiece [("d1", "wK"), ("e1", "wK"), ("d8", "bK")] "wK" = 2 from by decide,
    show countPiece [("d1", "wK"), ("e1", "wK"), ("d8", "bK")] "bK" = 1 from by decide]
  rfl

/-- C9.  Tail fields of the produced exchange string: the castling field is
the ordered concatenation of the set rights (or a dash), the fifth field is
the constant halfmove clock 0 and the sixth the constant fullmove number 1. -/
theorem encode_tail_fields (obj : PosObj) (turn : Turn) (cf : Castling)
    (hwf : WellFormedPos obj) (hnp : noPawnBackRank obj)
    (hwk : countPiece obj "wK" = 1) (hbk : countPiece obj "bK" = 1) :
    ∃ fen, posObjToFen obj turn cf = Except.ok fen ∧
      (jsSplit ' ' fen).get? 2 = some
        (if ((if cf.K then "K" else "") ++ (if cf.Q then "Q" else "")
            ++ (if cf.k then "k" else "") ++ (if cf.q then "q" else "")) = "" then "-"
          else ((if cf.K then "K" else "") ++ (if cf.Q then "Q" else "")
            ++ (if cf.k then "k" else "") ++ (if cf.q then "q" else ""))) ∧
      (jsSplit ' ' fen).get? 4 = some "0" ∧
      (jsSplit ' ' fen).get? 5 = some "1" := by
  have hcode : ∀ r f : Nat, f ∈ List.range 8 → cellCode obj r f :=
    fun r f _ p hp => (jsGet_wf_code hwf hp).1
  refine ⟨_, posObjToFen_ok obj turn cf hwf hnp hwk hbk, ?_, ?_, ?_⟩ <;>
    rw [jsSplit_six _ _ _ _ (noSpace_placementOf obj hcode RANKS) (noSpace_turnStr turn)
      (noSpace_castleStr cf) (noSpace_ep obj turn)] <;> rfl

/-- Witness for C9: the kings-only position with white king-side and black
queen-side rights yields the castling field first, then the fixed clock
fields. -/
theorem encode_tail_fields_witness :
    ∃ fen, posObjToFen [("d1", "wK"), ("d8", "bK")] Turn.b ⟨true, false, false, true⟩
        = Except.ok fen ∧
      (jsSplit ' ' fen).get? 2 = some
        (if ((if true then "K" else "") ++ (if false then "Q" else "")
            ++ (if false then "k" else "") ++ (if true then "q" else "")) = "" then "-"
          else ((if true then "K" else "") ++ (if false then "Q" else "")
            ++ (if false then "k" else "") ++ (if true then "q" else ""))) ∧
      (jsSplit ' ' fen).get? 4 = some "0" ∧
      (jsSplit ' ' fen).get? 5 = some "1" :=
  encode_tail_fields [("d1", "wK"), ("d8", "bK")] Turn.b ⟨true, false, false, true⟩
    (by decide) (by decide) (by decide) (by decide)

/-! ### Decoder leniency claims -/

/-- C10.  Implicit decode defaults: decoding fails only on the placement
field; on success the side to move is black exactly when the second field is
the string b, and a third field that is missing, or present but free of the
rights characters K, Q, k, q (such as a dash), leaves all four castling
booleans false. -/
theorem decode_defaults (fen : String) :
    ((fenToPosObj fen).isOk
      = (decChars ((jsSplit ' ' fen).headD "").data ⟨[], 8, 0⟩).isOk) ∧
    ∀ res, fenToPosObj fen = Except.ok res →
      ((res.turn = Turn.b) ↔ (jsSplit ' ' fen).get? 1 = some "b") ∧
      ((jsSplit ' ' fen).get? 2 = none → res.castle = ⟨false, false, false, false⟩) ∧
      (∀ s, (jsSplit ' ' fen).get? 2 = some s →
        strIncludes s 'K' = false → strIncludes s 'Q' = false →
        strIncludes s 'k' = false → strIncludes s 'q' = false →
        res.castle = ⟨false, false, false, false⟩) := by
  constructor
  · rw [fenToPosObj_eq]
    rcases hdec : decChars ((jsSplit ' ' fen).headD "").data ⟨[], 8, 0⟩ with e | st
    · rfl
    · rfl
  · intro res hres
    rw [fenToPosObj_eq] at hres
    rcases hdec : decChars ((jsSplit ' ' fen).headD "").data ⟨[], 8, 0⟩ with e | st
    · rw [hdec] at hres
      exact absurd hres (by simp [exceptErrBind])
    · rw [hdec, exceptOkBind] at hres
      injection hres with hres
      subst hres
      refine ⟨?_, ?_, ?_⟩
      · show (if (jsSplit ' ' fen).get? 1 = some "b" then Turn.b else Turn.w) = Turn.b
          ↔ (jsSplit ' ' fen).get? 1 = some "b"
        by_cases hb : (jsSplit ' ' fen).get? 1 = some "b"
        · rw [if_pos hb]
          exact ⟨fun _ => hb, fun _ => rfl⟩
        · rw [if_neg hb]
          exact ⟨fun h => absurd h (by decide), fun h => absurd h hb⟩
      · intro h2
        show Castling.mk
            (match (jsSplit ' ' fen).get? 2 with
              | some s => strIncludes s 'K'
              | none => false)
            (match (jsSplit ' ' fen).get? 2 with
              | some s => strIncludes s 'Q'
              | none => false)
            (match (jsSplit ' ' fen).get? 2 with
              | some s => strIncludes s 'k'
              | none => false)
            (match (jsSplit ' ' fen).get? 2 with
              | some s => strIncludes s 'q'
              | none => false) = ⟨false, false, false, false⟩
        rw [h2]
      · intro s h2 hK hQ hk2 hq2
        show Castling.mk
            (match (jsSplit ' ' fen).get? 2 with
              | some t => strIncludes t 'K'
              | none => false)
            (match (jsSplit ' ' fen).get? 2 with
              | some t => strIncludes t 'Q'
              | none => false)
            (match (jsSplit ' ' fen).get? 2 with
              | some t => strIncludes t 'k'
              | none => false)
            (match (jsSplit ' ' fen).get? 2 with
              | some t => strIncludes t 'q'
              | none => false) = ⟨false, false, false, false⟩
        simp only [h2, hK, hQ, hk2, hq2]

/-- Witness for C10: a three-field input with a dash rights field decodes
with side black and all four castling booleans false. -/
theorem decode_defaults_witness :
    (fenToPosObj "8/8/8/8/8/8/8/8 b -").isOk = true ∧
    ∀ res, fenToPosObj "8/8/8/8/8/8/8/8 b -" = Except.ok res →
      res.turn = Turn.b ∧ res.castle = ⟨false, false, false, false⟩ := by
  have h := decode_defaults "8/8/8/8/8/8/8/8 b -"
  constructor
  · rw [h.1]
    rfl
  · intro res hres
    refine ⟨((h.2 res hres).1).mpr (by decide), ?_⟩
    exact (h.2 res hres).2.2 "-" (by decide) (by decide) (by decide) (by decide) (by decide)

/-- C7 as stated is false: this input has a single space-separated field yet
decodes successfully instead of failing with a malformed-exchange-string
error. -/
theorem decode_short_counterexample :
    (jsSplit ' ' "8/8/8/8/8/8/8/8").length < 3 ∧
      fenToPosObj "8/8/8/8/8/8/8/8"
        = Except.ok ⟨[], Turn.w, ⟨false, false, false, false⟩⟩ := by
  constructor
  · decide
  · rfl

/-- C7 amended: the decoder performs no field-count validation; on an input
with fewer than three space-separated fields it succeeds whenever the
placement field parses, defaulting the missing fields, and fails only on an
unrecognized placement character. -/
theorem decode_short_input (fen : String)
    (_hlen : (jsSplit ' ' fen).length < 3) :
    (fenToPosObj fen).isOk
      = (decChars ((jsSplit ' ' fen).headD "").data ⟨[], 8, 0⟩).isOk := by
  rw [fenToPosObj_eq]
  rcases hdec : decChars ((jsSplit ' ' fen).headD "").data ⟨[], 8, 0⟩ with e | st
  · rfl
  · rfl

/-- Witness for the amended C7 on a single-field input. -/
theorem decode_short_input_witness :
    (fenToPosObj "8/8/8/8/8/8/8/8").isOk = true := by
  rw [decode_short_input "8/8/8/8/8/8/8/8" (by decide)]
  rfl

/-! ### En-passant inference claim -/

theorem epProbe_shape {obj : PosObj} {pR eR : Int} {en fr : String} {idx : Nat} {s : String}
    (h : epProbe obj pR eR en fr idx = some s) : s = sqStr idx eR := by
  unfold epProbe at h
  by_cases h1 : jsGet obj (sqStr idx pR) ≠ some en
  · rw [if_pos h1] at h
    exact absurd h (by simp)
  · rw [if_neg h1] at h
    by_cases h2 : (jsGet obj (sqStr idx eR)).isSome = true
    · rw [if_pos h2] at h
      exact absurd h (by simp)
    · rw [if_neg h2] at h
      by_cases h3 : (0 < idx ∧ jsGet obj (sqStr (idx - 1) pR) = some fr)
          ∨ (idx < 7 ∧ jsGet obj (sqStr (idx + 1) pR) = some fr)
      · rw [if_pos h3] at h
        injection h with h
        exact h.symm
      · rw [if_neg h3] at h
        exact absurd h (by simp)

theorem scanEP_mem_iff (obj : PosObj) (pR eR : Int) (en fr : String) (s : String) :
    s ∈ scanEP obj pR eR en fr ↔ epSpecAt obj pR eR en fr s := by
  unfold scanEP epSpecAt
  rw [List.mem_filterMap]
  constructor
  · rintro ⟨idx, hidx, hg⟩
    refine ⟨idx, List.mem_range.mp hidx, epProbe_shape hg, ?_⟩
    unfold epProbe at hg
    by_cases h1 : jsGet obj (sqStr idx pR) ≠ some en
    · rw [if_pos h1] at hg
      exact absurd hg (by simp)
    · rw [if_neg h1] at hg
      by_cases h2 : (jsGet obj (sqStr idx eR)).isSome = true
      · rw [if_pos h2] at hg
        exact absurd hg (by simp)
      · rw [if_neg h2] at hg
        by_cases h3 : (0 < idx ∧ jsGet obj (sqStr (idx - 1) pR) = some fr)
            ∨ (idx < 7 ∧ jsGet obj (sqStr (idx + 1) pR) = some fr)
        · exact ⟨not_not.mp h1, Option.not_isSome_iff_eq_none.mp (by simpa using h2), h3⟩
        · rw [if_neg h3] at hg
          exact absurd hg (by simp)
  · rintro ⟨idx, hlt, rfl, h5, h6, hadj⟩
    refine ⟨idx, List.mem_range.mpr hlt, ?_⟩
    unfold epProbe
    rw [if_neg (fun hn => hn h5), if_neg (by rw [h6]; simp), if_pos hadj]

theorem scanEP_nodup (obj : PosObj) (pR eR : Int) (en fr : String)
    (hinj : ∀ i ∈ List.range 8, ∀ j ∈ List.range 8, sqStr i eR = sqStr j eR → i = j) :
    (scanEP obj pR eR en fr).Nodup := by
  unfold scanEP
  have haux : ∀ l : List Nat, l.Nodup → (∀ i ∈ l, i ∈ List.range 8) →
      (l.filterMap (epProbe obj pR eR en fr)).Nodup := by
    intro l
    induction l with
    | nil => intro _ _; simp
    | cons i rest ih =>
      intro hnd hsub
      have hnd2 := (List.nodup_cons.mp hnd).2
      have hinr := (List.nodup_cons.mp hnd).1
      have hsub2 : ∀ j ∈ rest, j ∈ List.range 8 :=
        fun j hj => hsub j (List.mem_cons_of_mem _ hj)
      rw [List.filterMap_cons]
      rcases hgi : epProbe obj pR eR en fr i with _ | s
      · exact ih hnd2 hsub2
      · refine List.nodup_cons.mpr ⟨?_, ih hnd2 hsub2⟩
        intro hmem
        obtain ⟨j, hj, hgj⟩ := List.mem_filterMap.mp hmem
        have hij : i = j := hinj i (hsub i (List.mem_cons_self _ _)) j (hsub2 j hj)
          ((epProbe_shape hgi).symm.trans (epProbe_shape hgj))
        exact hinr (hij ▸ hj)
  exact haux (List.range 8) (List.nodup_range 8) (fun i h => h)

theorem nodup_eq_singleton {l : List String} (hnd : l.Nodup) {s : String}
    (hm : s ∈ l) (hall : ∀ t ∈ l, t = s) : l = [s] := by
  rcases l with _ | ⟨c, rest⟩
  · exact absurd hm (List.not_mem_nil s)
  · have hc : c = s := hall c (List.mem_cons_self _ _)
    subst hc
    rcases rest with _ | ⟨d, rest2⟩
    · rfl
    · have hd : d = c := hall d (List.mem_cons_of_mem _ (List.mem_cons_self _ _))
      have hcnr : c ∉ d :: rest2 := (List.nodup_cons.mp hnd).1
      have hcm : c ∈ d :: rest2 := by
        rw [hd]
        exact List.mem_cons_self _ _
      exact absurd hcm hcnr

/-- C2.  En-passant inference: the candidate list of `autoDetectEnPassant`
consists exactly of the squares satisfying the specification's side-aware
condition; the function returns the candidate when it is unique and a dash
when there are zero candidates or at least two distinct ones. -/
theorem ep_detect (obj : PosObj) (turn : Turn) :
    (∀ s, s ∈ epCands obj turn ↔ epCandSpec obj turn s) ∧
    (∀ s, epCandSpec obj turn s → (∀ t, epCandSpec obj turn t → t = s) →
      autoDetectEnPassant obj turn = s) ∧
    ((∀ s, ¬epCandSpec obj turn s) → autoDetectEnPassant obj turn = "-") ∧
    (∀ s t, epCandSpec obj turn s → epCandSpec obj turn t → s ≠ t →
      autoDetectEnPassant obj turn = "-") := by
  have hiff : ∀ s, s ∈ epCands obj turn ↔ epCandSpec obj turn s := by
    cases turn
    · exact fun s => scanEP_mem_iff obj 5 6 "bP" "wP" s
    · exact fun s => scanEP_mem_iff obj 4 3 "wP" "bP" s
  have hnd : (epCands obj turn).Nodup := by
    cases turn
    · exact scanEP_nodup obj 5 6 "bP" "wP" (by decide)
    · exact scanEP_nodup obj 4 3 "wP" "bP" (by decide)
  refine ⟨hiff, ?_, ?_, ?_⟩
  · intro s hs huniq
    have hsing : epCands obj turn = [s] :=
      nodup_eq_singleton hnd ((hiff s).mpr hs) (fun t ht => huniq t ((hiff t).mp ht))
    unfold autoDetectEnPassant
    rw [hsing]
  · intro hnone
    have hnil : epCands obj turn = [] := by
      rcases hc : epCands obj turn with _ | ⟨c, rest⟩
      · rfl
      · have : c ∈ epCands obj turn := by rw [hc]; exact List.mem_cons_self _ _
        exact absurd ((hiff c).mp this) (hnone c)
    unfold autoDetectEnPassant
    rw [hnil]
  · intro s t hs ht hne
    have hsm := (hiff s).mpr hs
    have htm := (hiff t).mpr ht
    unfold autoDetectEnPassant
    rcases hc : epCands obj turn with _ | ⟨c, rest⟩
    · exact absurd (hc ▸ hsm) (List.not_mem_nil s)
    · rcases rest with _ | ⟨d, rest2⟩
      · rw [hc] at hsm htm
        simp only [List.mem_singleton] at hsm htm
        exact absurd (hsm.trans htm.symm) hne
      · rfl

/-- Witness for C2: the specification's two concrete scenarios, a unique
candidate at e6 and an ambiguous pair suppressed to a dash. -/
theorem ep_detect_witness :
    autoDetectEnPassant [("e5", "bP"), ("d5", "wP"), ("f5", "wP")] Turn.w = "e6" ∧
    autoDetectEnPassant
      [("e5", "bP"), ("d5", "wP"), ("f5", "wP"), ("c5", "bP"), ("b5", "wP")] Turn.w = "-" := by
  have h1 := ep_detect [("e5", "bP"), ("d5", "wP"), ("f5", "wP")] Turn.w
  have h2 := ep_detect
    [("e5", "bP"), ("d5", "wP"), ("f5", "wP"), ("c5", "bP"), ("b5", "wP")] Turn.w
  constructor
  · refine h1.2.1 "e6" ((h1.1 "e6").mp (by decide)) ?_
    intro t ht
    have hmem : t ∈ epCands [("e5", "bP"), ("d5", "wP"), ("f5", "wP")] Turn.w :=
      (h1.1 t).mpr ht
    rw [show epCands [("e5", "bP"), ("d5", "wP"), ("f5", "wP")] Turn.w = ["e6"]
      from by decide] at hmem
    simpa using hmem
  · exact h2.2.2.2 "c6" "e6" ((h2.1 "c6").mp (by decide)) ((h2.1 "e6").mp (by decide))
      (by decide)

/-! ### Bot move selection claim -/

theorem VAL_bound (kd : Kind) : 0 ≤ VAL kd ∧ VAL kd ≤ 900 := by
  cases kd <;> exact ⟨by decide, by decide⟩

theorem cellScore_bound (a : Int) (cell : Option Cell) :
    a - 900 ≤ cellScore a cell ∧ cellScore a cell ≤ a + 900 := by
  rcases cell with _ | c
  · show a - 900 ≤ a ∧ a ≤ a + 900
    exact ⟨by omega, by omega⟩
  · show a - 900 ≤ a + (if c.color = Turn.w then VAL c.kind else -VAL c.kind)
      ∧ a + (if c.color = Turn.w then VAL c.kind else -VAL c.kind) ≤ a + 900
    have hv := VAL_bound c.kind
    by_cases hc : c.color = Turn.w
    · rw [if_pos hc]
      exact ⟨by omega, by omega⟩
    · rw [if_neg hc]
      exact ⟨by omega, by omega⟩

theorem rowFold_bound (row : List (Option Cell)) : ∀ a : Int,
    a - 900 * row.length ≤ row.foldl cellScore a
      ∧ row.foldl cellScore a ≤ a + 900 * row.length := by
  induction row with
  | nil => intro a; simp
  | cons cell rest ih =>
    intro a
    rw [List.foldl_cons, List.length_cons]
    have h1 := cellScore_bound a cell
    have h2 := ih (cellScore a cell)
    constructor
    · have h21 := h2.1
      push_cast at h21 ⊢
      omega
    · have h22 := h2.2
      push_cast at h22 ⊢
      omega

theorem materialScore_bound (b : ChessBoard) (hb : Board8 b) :
    -57600 ≤ materialScore b ∧ materialScore b ≤ 57600 := by
  unfold materialScore
  have haux : ∀ (rows : List (List (Option Cell))) (acc : Int),
      (∀ row ∈ rows, row.length = 8) →
      acc - 7200 * rows.length ≤ rows.foldl (fun acc row => row.foldl cellScore acc) acc
        ∧ rows.foldl (fun acc row => row.foldl cellScore acc) acc
            ≤ acc + 7200 * rows.length := by
    intro rows
    induction rows with
    | nil => intro acc _; simp
    | cons row rest ih =>
      intro acc hlen
      rw [List.foldl_cons, List.length_cons]
      have hrow := rowFold_bound row acc
      rw [hlen row (List.mem_cons_self _ _)] at hrow
      have hr := ih (row.foldl cellScore acc)
        (fun r2 hrm => hlen r2 (List.mem_cons_of_mem _ hrm))
      constructor
      · have h1 := hr.1
        push_cast at h1 ⊢
        omega
      · have h2 := hr.2
        push_cast at h2 ⊢
        omega
  have h := haux b 0 hb.2
  rw [hb.1] at h
  exact ⟨by have := h.1; omega, by have := h.2; omega⟩

theorem botStep_cases {μ : Type} (base sgn : Int) (acc : Option μ × Int)
    (mb : μ × ChessBoard) :
    (botStep base sgn acc mb = acc
      ∨ botStep base sgn acc mb = (some mb.1, materialScore mb.2 * sgn - base * sgn)) ∧
    acc.2 ≤ (botStep base sgn acc mb).2 ∧
    materialScore mb.2 * sgn - base * sgn ≤ (botStep base sgn acc mb).2 := by
  unfold botStep
  by_cases hd : materialScore mb.2 * sgn - base * sgn > acc.2
  · rw [if_pos hd]
    exact ⟨Or.inr rfl, le_of_lt hd, le_refl _⟩
  · rw [if_neg hd]
    exact ⟨Or.inl rfl, le_refl _, le_of_not_lt hd⟩

theorem botScan {μ : Type} (base sgn : Int) :
    ∀ (l : List (μ × ChessBoard)) (acc : Option μ × Int),
      (l.foldl (botStep base sgn) acc = acc
        ∨ ∃ m b, (m, b) ∈ l ∧
            l.foldl (botStep base sgn) acc = (some m, materialScore b * sgn - base * sgn)) ∧
      (∀ mb ∈ l, materialScore mb.2 * sgn - base * sgn ≤ (l.foldl (botStep base sgn) acc).2) ∧
      acc.2 ≤ (l.foldl (botStep base sgn) acc).2 := by
  intro l
  induction l with
  | nil =>
    intro acc
    exact ⟨Or.inl rfl, by simp, le_refl _⟩
  | cons mb rest ih =>
    intro acc
    rw [List.foldl_cons]
    obtain ⟨hsh, hmono, hdel⟩ := botStep_cases base sgn acc mb
    obtain ⟨ihsh, ihmax, ihmono⟩ := ih (botStep base sgn acc mb)
    refine ⟨?_, ?_, le_trans hmono ihmono⟩
    · rcases ihsh with h | ⟨m, b, hmem, heq⟩
      · rw [h]
        rcases hsh with h2 | h2
        · exact Or.inl h2
        · exact Or.inr ⟨mb.1, mb.2, List.mem_cons_self mb rest, h2⟩
      · exact Or.inr ⟨m, b, List.mem_cons_of_mem _ hmem, heq⟩
    · intro mb2 hmb2
      rcases List.mem_cons.mp hmb2 with h2 | h2
      · subst h2
        exact le_trans hdel ihmono
      · exact ihmax mb2 h2

/-- C5.  Move selection: over any oracle view with real eight-by-eight boards,
`pickBotMove` returns no move exactly when the legal-move list is empty, and
otherwise returns a legal move whose material delta is maximal among all legal
moves (so it never picks a negative-delta move while a zero-or-positive-delta
move exists).  Quantifying over the oracle's move list covers every outcome of
the tie-break shuffle. -/
theorem pickBotMove_spec {μ : Type} (o : Oracle μ) (color : Turn) (hwf : Oracle.WF o) :
    (pickBotMove o color = none ↔ o.legal = []) ∧
    (∀ m, pickBotMove o color = some m →
      ∃ b, (m, b) ∈ o.legal ∧
        ∀ mb ∈ o.legal, moveDelta o color mb.2 ≤ moveDelta o color b) := by
  have hsgn : (if color = Turn.w then (1 : Int) else -1) = 1
      ∨ (if color = Turn.w then (1 : Int) else -1) = -1 := by
    by_cases hc : color = Turn.w
    · exact Or.inl (if_pos hc)
    · exact Or.inr (if_neg hc)
  rcases hleg : o.legal with _ | ⟨mb0, rest⟩
  · constructor
    · unfold pickBotMove
      rw [hleg]
      exact ⟨fun _ => rfl, fun _ => rfl⟩
    · intro m hm
      unfold pickBotMove at hm
      rw [hleg] at hm
      exact absurd hm (by simp)
  · have hne : o.legal.length ≠ 0 := by rw [hleg]; simp
    have hpick : pickBotMove o color =
        (o.legal.foldl (botStep (materialScore o.board)
            (if color = Turn.w then 1 else -1))
          ((none : Option μ), (-1000000000 : Int))).1 := by
      unfold pickBotMove
      rw [if_neg hne]
    obtain ⟨hsh, hmax, -⟩ := botScan (materialScore o.board)
      (if color = Turn.w then 1 else -1) o.legal ((none : Option μ), (-1000000000 : Int))
    have hinit : (o.legal.foldl (botStep (materialScore o.board)
        (if color = Turn.w then 1 else -1))
        ((none : Option μ), (-1000000000 : Int))).1 ≠ none := by
      rcases hsh with h | ⟨m, b, hmem, heq⟩
      · exfalso
        have hb0 : Board8 mb0.2 := hwf.2 mb0 (by rw [hleg]; exact List.mem_cons_self _ _)
        have hbb : Board8 o.board := hwf.1
        have hs1 := materialScore_bound mb0.2 hb0
        have hs2 := materialScore_bound o.board hbb
        have hdelta : -1000000000 <
            materialScore mb0.2 * (if color = Turn.w then 1 else -1)
              - materialScore o.board * (if color = Turn.w then 1 else -1) := by
          rcases hsgn with hs | hs <;> rw [hs] <;> omega
        have hle := hmax mb0 (by rw [hleg]; exact List.mem_cons_self _ _)
        rw [h] at hle
        simp only at hle
        omega
      · rw [heq]
        simp
    constructor
    · constructor
      · intro hnone
        rw [hpick] at hnone
        exact absurd hnone hinit
      · intro habs
        exact absurd habs (by simp)
    · intro m hm
      rw [← hleg]
      rw [hpick] at hm
      rcases hsh with h | ⟨m2, b, hmem, heq⟩
      · rw [h] at hm
        exact absurd hm (by simp)
      · rw [heq] at hm
        simp only at hm
        injection hm with hm
        subst hm
        refine ⟨b, hmem, ?_⟩
        intro mb hmb
        have hle := hmax mb hmb
        rw [heq] at hle
        simp only at hle
        unfold moveDelta
        exact hle

/-- Witness for C5: a one-move oracle view over empty boards; the bot picks
the only legal move. -/
theorem pickBotMove_spec_witness :
    ∃ m, pickBotMove
        (⟨List.replicate 8 (List.replicate 8 (none : Option Cell)),
          [((0 : Nat), List.replicate 8 (List.replicate 8 (none : Option Cell)))]⟩ : Oracle Nat)
        Turn.w = some m ∧
      ∃ b, (m, b) ∈ [((0 : Nat), List.replicate 8 (List.replicate 8 (none : Option Cell)))] := by
  have h := pickBotMove_spec
    (⟨List.replicate 8 (List.replicate 8 (none : Option Cell)),
      [((0 : Nat), List.replicate 8 (List.replicate 8 (none : Option Cell)))]⟩ : Oracle Nat)
    Turn.w (by constructor <;> decide)
  rcases hp : pickBotMove
      (⟨List.replicate 8 (List.replicate 8 (none : Option Cell)),
        [((0 : Nat), List.replicate 8 (List.replicate 8 (none : Option Cell)))]⟩ : Oracle Nat)
      Turn.w with _ | m
  · exact absurd (h.1.mp hp) (by simp)
  · obtain ⟨b, hb, -⟩ := h.2 m hp
    exact ⟨m, rfl, b, hb⟩

/-! ### Synchronization claims -/

theorem handleMoveMsg_some (load : LoadFn) (st : SessionI) (rf : String) :
    handleMoveMsg load st (some rf) =
      match load rf with
      | some c => { fen := rf, chess := c }
      | none => st := rfl

/-- C8.  Synchronization idempotence of the broadcast handler: delivering the
same message twice leaves the same final state as delivering it once, and a
payload whose position the oracle rejects leaves the state unchanged. -/
theorem sync_idempotent (load : LoadFn) (st : SessionI) (p : Option String) :
    handleMoveMsg load (handleMoveMsg load st p) p = handleMoveMsg load st p ∧
    (∀ rf, p = some rf → load rf = none → handleMoveMsg load st p = st) := by
  rcases p with _ | rf
  · exact ⟨rfl, fun rf h => absurd h (by simp)⟩
  · rcases hl : load rf with _ | c
    · constructor
      · rw [handleMoveMsg_some, handleMoveMsg_some, hl]
      · intro rf2 h2 hl2
        injection h2 with h2
        subst h2
        rw [handleMoveMsg_some, hl]
    · constructor
      · rw [handleMoveMsg_some, handleMoveMsg_some, hl]
      · intro rf2 h2 hl2
        injection h2 with h2
        subst h2
        rw [hl] at hl2
        exact absurd hl2 (by simp)

/-- Witness for C8: a concrete message applied twice to a concrete session
with an oracle that accepts it. -/
theorem sync_idempotent_witness :
    handleMoveMsg (fun _ => some ⟨Turn.b⟩)
        (handleMoveMsg (fun _ => some ⟨Turn.b⟩) ⟨"start", ⟨Turn.w⟩⟩ (some "next"))
        (some "next")
      = handleMoveMsg (fun _ => some ⟨Turn.b⟩) ⟨"start", ⟨Turn.w⟩⟩ (some "next") :=
  (sync_idempotent (fun _ => some ⟨Turn.b⟩) ⟨"start", ⟨Turn.w⟩⟩ (some "next")).1

theorem handleMoveMsg1_some (load : LoadFn) (st : Session1) (rf : String) :
    handleMoveMsg1 load st (some rf) =
      if strStarts rf "SANDBOX:" then importFENText1 st rf
      else
        match load rf with
        | some c => { st with chess := c, fen := rf, turn := c.turn }
        | none => st := rfl

theorem importFENText1_sandbox (st : Session1) (text : String)
    (h : strStarts text "SANDBOX:" = true) :
    importFENText1 st text =
      { st with
          mode := Mode.sandbox,
          sandboxPos := sandboxEntries (String.intercalate ":" ((jsSplit ':' text).drop 2)),
          turn := if (jsSplit ':' text).get? 1 = some "b" then Turn.b else Turn.w } := by
  unfold importFENText1
  rw [if_pos h]

/-- C6.  Freeform sync ingestion: a received move message whose resulting
position bears the sandbox sentinel prefix replaces the local position state
wholesale with the parsed freeform content, and the result does not depend on
the oracle's load function in any way. -/
theorem freeform_sync (load : LoadFn) (st : Session1) (rf : String)
    (h : strStarts rf "SANDBOX:" = true) :
    handleMoveMsg1 load st (some rf) =
      { st with
          mode := Mode.sandbox,
          sandboxPos := sandboxEntries (String.intercalate ":" ((jsSplit ':' rf).drop 2)),
          turn := if (jsSplit ':' rf).get? 1 = some "b" then Turn.b else Turn.w } ∧
    ∀ load2 : LoadFn, handleMoveMsg1 load2 st (some rf) = handleMoveMsg1 load st (some rf) := by
  constructor
  · rw [handleMoveMsg1_some, if_pos h, importFENText1_sandbox st rf h]
  · intro load2
    rw [handleMoveMsg1_some, handleMoveMsg1_some, if_pos h, if_pos h]

/-- Witness for C6: a concrete sandbox message replaces mode, sandbox position
and turn identically under two different oracle load functions. -/
theorem freeform_sync_witness :
    handleMoveMsg1 (fun _ => none) ⟨Mode.strict, "init", [], Turn.w, ⟨Turn.w⟩⟩
        (some "SANDBOX:b:wK:e1,bK:e8")
      = ⟨Mode.sandbox, "init", [("e8", "bK"), ("e1", "wK")], Turn.b, ⟨Turn.w⟩⟩ ∧
    handleMoveMsg1 (fun _ => some ⟨Turn.b⟩) ⟨Mode.strict, "init", [], Turn.w, ⟨Turn.w⟩⟩
        (some "SANDBOX:b:wK:e1,bK:e8")
      = handleMoveMsg1 (fun _ => none) ⟨Mode.strict, "init", [], Turn.w, ⟨Turn.w⟩⟩
        (some "SANDBOX:b:wK:e1,bK:e8") := by
  have h := freeform_sync (fun _ => none) ⟨Mode.strict, "init", [], Turn.w, ⟨Turn.w⟩⟩
    "SANDBOX:b:wK:e1,bK:e8" (by decide)
  constructor
  · rw [h.1]
    decide
  · exact h.2 (fun _ => some ⟨Turn.b⟩)

end AnyChess
